import Mathlib

/-!
# Verification of the Brite front end specification

A shallow embedding, in Lean 4, of the Brite language front end: the
position/range/document model (`src/old/old/src/source/document.rs`), the
diagnostics collection (`src/src/diagnostics.rs`) and the tolerant parser
(`src/src/source/parser.rs`, `src/src/source/mod.rs`).

Conventions used throughout:

* Rust `u32`/`usize` values are modelled as `Nat`; where overflow matters
  (`Range::end`) the wrap-around is made explicit with `% 2 ^ 32`.
* Rust panics (`unimplemented!()`, `unreachable!()`) are modelled as an
  explicit error channel (`Panic` / `PErr`) rather than as partial functions.
* Iterators over strings are modelled as Lean lists.
* Several modules of the repository are referenced but absent from the
  source tree (`token.rs`, `ast.rs`, `lexer.rs`, `identifier.rs`, plus the
  `Identifier` type of the `parser` module used by `diagnostics.rs`).
  Definitions for those are marked `Modelled from the spec:` in their doc
  comments and follow the specification's description of their interfaces.
-/

namespace Brite

/-! ## Positions (document.rs, `Position`) -/

/-- A position between two characters in a source document: a byte offset into
the document text (`Position(u32)` in the source; the offset is modelled as a
`Nat`, with wrap-around made explicit at the one place where `u32` overflow can
occur, `Range::end`). -/
structure Position where
  offset : Nat
deriving DecidableEq, Repr

/-- `2 ^ 32`, the modulus of Rust `u32` arithmetic. -/
def u32Mod : Nat := 4294967296

/-! ## UTF-8 byte encoding of characters

`document.rs` views its text both as a sequence of characters (`text.chars()`)
and as raw bytes (`text.as_bytes()`). We store the text as a `List Char` and
compute the byte view with the standard UTF-8 encoder below. -/

/-- The number of bytes of the UTF-8 encoding of a character
(Rust `char::len_utf8`). -/
def charUtf8Len (c : Char) : Nat :=
  if c.toNat < 0x80 then 1
  else if c.toNat < 0x800 then 2
  else if c.toNat < 0x10000 then 3
  else 4

/-- The UTF-8 encoding of one character as a list of bytes. -/
def charUtf8Bytes (c : Char) : List Nat :=
  let n := c.toNat
  if n < 0x80 then [n]
  else if n < 0x800 then [0xC0 + n / 64, 0x80 + n % 64]
  else if n < 0x10000 then [0xE0 + n / 4096, 0x80 + (n / 64) % 64, 0x80 + n % 64]
  else [0xF0 + n / 262144, 0x80 + (n / 4096) % 64, 0x80 + (n / 64) % 64, 0x80 + n % 64]

/-- The UTF-8 byte sequence of a text (Rust `str::as_bytes`). -/
def utf8Bytes (text : List Char) : List Nat :=
  (text.map charUtf8Bytes).flatten

/-! ## The line index (document.rs, `Document::new`) -/

/-- The line-boundary scan of `Document::new`, recursing on the byte suffix
starting at index `j` (so the full text has length `j + suffix.length`).  The
Rust loop reads the byte `b` at index `j`, increments the index to `i = j + 1`,
and records a line start after `\n` (byte 10) and after `\r` (byte 13).  For
`\r` it skips the `\n` of a `\r\n` pair only under the guard
`i + 1 < bytes.len() && bytes[i] == b'\n'`: here `bytes[i]` is `b2`, the head
of `rest`, and `i + 1 < bytes.len()` says `j + 2 < j + 1 + rest.length`, that
is `rest2 ≠ []` — the guard looks one byte past the `\n` being skipped. -/
def linesGo : List Nat → Nat → List Position
  | [], _ => []
  | b :: rest, j =>
    if b = 10 then
      ⟨j + 1⟩ :: linesGo rest (j + 1)
    else if b = 13 then
      match rest with
      | b2 :: rest2 =>
        if rest2.length ≠ 0 ∧ b2 = 10 then
          ⟨j + 2⟩ :: linesGo rest2 (j + 2)
        else
          ⟨j + 1⟩ :: linesGo (b2 :: rest2) (j + 1)
      | [] => [⟨j + 1⟩]
    else linesGo rest (j + 1)

/-- The line boundaries computed by `Document::new`. -/
def documentLines (bytes : List Nat) : List Position := linesGo bytes 0

/-- A Brite source code document (document.rs `Document`): a path, the text,
and the positions where lines after the first begin. -/
structure Document where
  path : String
  text : List Char
  lines : List Position

/-- `Document::new`: build the line index with a single scan of the bytes. -/
def Document.new (path : String) (text : List Char) : Document :=
  ⟨path, text, documentLines (utf8Bytes text)⟩

/-- `Document::start`. -/
def Document.start (_ : Document) : Position := ⟨0⟩

/-- `Document::end`: the byte length of the text. -/
def Document.end_ (d : Document) : Position := ⟨(utf8Bytes d.text).length⟩

/-! ## Line and character lookup (document.rs, `Position::line/character`) -/

/-- Rust `slice::binary_search`, modelled by its contract on a sorted slice:
`Ok` with the index of a matching element when the probe is present, otherwise
`Err` with the insertion point (the number of elements ordered before the
probe). The `lines` vector is strictly increasing, so the matching index is
unique. -/
def binarySearch (l : List Position) (p : Position) : Except Nat Nat :=
  if p ∈ l then .ok (l.findIdx (fun q => q = p))
  else .error (l.countP (fun q => q.offset < p.offset))

/-- `Position::line`: `lines.binary_search(self)`, an exact hit meaning the
position starts that line (`Ok(line) => line + 1`), a miss giving the line the
position falls inside (`Err(line) => line`). -/
def Position.line (p : Position) (document : Document) : Nat :=
  match binarySearch document.lines p with
  | .ok line => line + 1
  | .error line => line

/-- Is a byte a UTF-8 continuation byte (`0x80..=0xBF`)? -/
def isCont (b : Nat) : Bool := 0x80 ≤ b ∧ b ≤ 0xBF

/-- Lossy UTF-8 decoding of a byte sequence into a list of code points
(Rust `String::from_utf8_lossy`): each maximal subpart of an ill-formed
sequence is replaced by one U+FFFD replacement character, following the WHATWG
substitution rules that Rust documents for this function.  The continuation
points after an ill-formed subpart are written as explicit sublists so that
the recursion is structural. -/
def utf8DecodeLossy : List Nat → List Nat
  | [] => []
  | b :: rest =>
    if b < 0x80 then b :: utf8DecodeLossy rest
    else if 0xC2 ≤ b ∧ b ≤ 0xDF then
      match rest with
      | c1 :: rest1 =>
        if isCont c1 then ((b - 0xC0) * 64 + (c1 - 0x80)) :: utf8DecodeLossy rest1
        else 0xFFFD :: utf8DecodeLossy (c1 :: rest1)
      | [] => [0xFFFD]
    else if 0xE0 ≤ b ∧ b ≤ 0xEF then
      match rest with
      | c1 :: rest1 =>
        if (if b = 0xE0 then (0xA0 ≤ c1 ∧ c1 ≤ 0xBF : Bool)
            else if b = 0xED then (0x80 ≤ c1 ∧ c1 ≤ 0x9F : Bool)
            else isCont c1) then
          match rest1 with
          | c2 :: rest2 =>
            if isCont c2 then
              ((b - 0xE0) * 4096 + (c1 - 0x80) * 64 + (c2 - 0x80)) :: utf8DecodeLossy rest2
            else 0xFFFD :: utf8DecodeLossy (c2 :: rest2)
          | [] => [0xFFFD]
        else 0xFFFD :: utf8DecodeLossy (c1 :: rest1)
      | [] => [0xFFFD]
    else if 0xF0 ≤ b ∧ b ≤ 0xF4 then
      match rest with
      | c1 :: rest1 =>
        if (if b = 0xF0 then (0x90 ≤ c1 ∧ c1 ≤ 0xBF : Bool)
            else if b = 0xF4 then (0x80 ≤ c1 ∧ c1 ≤ 0x8F : Bool)
            else isCont c1) then
          match rest1 with
          | c2 :: rest2 =>
            if isCont c2 then
              match rest2 with
              | c3 :: rest3 =>
                if isCont c3 then
                  ((b - 0xF0) * 262144 + (c1 - 0x80) * 4096 + (c2 - 0x80) * 64 + (c3 - 0x80)) ::
                    utf8DecodeLossy rest3
                else 0xFFFD :: utf8DecodeLossy (c3 :: rest3)
              | [] => [0xFFFD]
            else 0xFFFD :: utf8DecodeLossy (c2 :: rest2)
          | [] => [0xFFFD]
        else 0xFFFD :: utf8DecodeLossy (c1 :: rest1)
      | [] => [0xFFFD]
    else 0xFFFD :: utf8DecodeLossy rest

/-- The number of UTF-16 code units of a code point (Rust `char::len_utf16`):
2 for code points needing a surrogate pair, otherwise 1. -/
def utf16LenOfCodePoint (cp : Nat) : Nat := if cp < 0x10000 then 1 else 2

/-- Decode a byte slice lossily and sum the UTF-16 lengths of its characters:
`String::from_utf8_lossy(bytes).chars().map(|c| c.len_utf16()).sum()`. -/
def utf16Length (bs : List Nat) : Nat :=
  ((utf8DecodeLossy bs).map utf16LenOfCodePoint).sum

/-- `Position::character`: the zero-based UTF-16 character offset of the
position within its line.  Translated branch by branch from the source: find
the line, take its start offset (`document.lines[line - 1]`, in bounds by the
binary-search contract; `getD` keeps the definition total), then count UTF-16
units over the byte slice from the line start, adding any excess beyond the end
of the text verbatim. `&bytes[start..end]` is rendered as
`(bytes.drop start).take (end - start)`. -/
def Position.character (p : Position) (document : Document) : Nat :=
  let bytes := utf8Bytes document.text
  let line := p.line document
  let start := if line = 0 then 0 else (document.lines.getD (line - 1) ⟨0⟩).offset
  let e := p.offset
  if start ≥ bytes.length then e - bytes.length
  else if e > bytes.length then
    (e - bytes.length) + utf16Length (bytes.drop start)
  else
    utf16Length ((bytes.drop start).take (e - start))

/-- The byte offset at which the line containing `p` starts, exactly as
`Position::character` computes it. -/
def lineStartOf (document : Document) (p : Position) : Nat :=
  let line := p.line document
  if line = 0 then 0 else (document.lines.getD (line - 1) ⟨0⟩).offset

/-- Modelled from the spec: "Character offset within a line is computed by
re-encoding the UTF-8 bytes between the line's start and the position into
UTF-16 code units and summing `char::len_utf16()` per character."  Used as the
specification side of the refinement statement about `Position::character`. -/
def specCharacter (document : Document) (p : Position) : Nat :=
  utf16Length (((utf8Bytes document.text).drop (lineStartOf document p)).take
    (p.offset - lineStartOf document p))

/-! ## Ranges (document.rs, `Range`) -/

/-- A range in a document: a start position plus a length in UTF-8 code units
(`Range { start: Position, length: u32 }`). -/
structure Range where
  start : Position
  length : Nat
deriving DecidableEq, Repr

/-- `Range::new`. -/
def Range.new (start : Position) (length : Nat) : Range := ⟨start, length⟩

/-- `Range::between`: normalizes two positions into a forward range. -/
def Range.between (start end_ : Position) : Range :=
  if start.offset ≤ end_.offset then ⟨start, end_.offset - start.offset⟩
  else ⟨end_, start.offset - end_.offset⟩

/-- `Range::end`: `Position(self.start.0 + self.length)` with `u32` addition;
the wrap-around of the `u32` sum is written out explicitly. -/
def Range.end_ (r : Range) : Position := ⟨(r.start.offset + r.length) % u32Mod⟩

/-! ## The character cursor (document.rs, `DocumentChars`) -/

/-- Lookahead state for `DocumentChars` (`DocumentCharsLookahead`). -/
inductive CharsLookahead where
  | none
  | lookahead1 (l1 : Option Char)
  | lookahead2 (l1 l2 : Option Char)
deriving DecidableEq, Repr

/-- An iterator of characters in a source document: the remaining characters of
the underlying `Chars` iterator, the byte offset after the last consumed
character, and the lookahead buffer.  The buffer field is named
`lookaheadState` because the method `DocumentChars::lookahead()` shares the
field's source name. -/
structure DocumentChars where
  chars : List Char
  position : Nat
  lookaheadState : CharsLookahead
deriving DecidableEq, Repr

/-- `Document::chars`: a fresh cursor at the start of the document. -/
def Document.chars (d : Document) : DocumentChars :=
  ⟨d.text, 0, .none⟩

/-- `DocumentChars::advance`: consume a character (the oldest buffered one, or
a fresh one when the buffer is empty) and add its UTF-8 length to the
position. -/
def DocumentChars.advance (s : DocumentChars) : Option Char × DocumentChars :=
  let pulled : Option Char × DocumentChars :=
    match s.lookaheadState with
    | .none =>
      match s.chars with
      | [] => (Option.none, s)
      | c :: cs => (some c, { s with chars := cs })
    | .lookahead1 l1 => (l1, { s with lookaheadState := .none })
    | .lookahead2 l1 l2 => (l1, { s with lookaheadState := .lookahead1 l2 })
  match pulled with
  | (some c, s1) => (some c, { s1 with position := s1.position + charUtf8Len c })
  | (Option.none, s1) => (Option.none, s1)

/-- `DocumentChars::lookahead`: look at the next character without consuming
it, filling the one-slot buffer on first use. -/
def DocumentChars.lookahead (s : DocumentChars) : Option Char × DocumentChars :=
  match s.lookaheadState with
  | .none =>
    match s.chars with
    | [] => (Option.none, { s with lookaheadState := .lookahead1 Option.none })
    | c :: cs => (some c, { s with chars := cs, lookaheadState := .lookahead1 (some c) })
  | .lookahead1 l1 => (l1, s)
  | .lookahead2 l1 _ => (l1, s)

/-- `DocumentChars::lookahead2`: look two characters ahead without consuming
either, filling the two-slot buffer as needed. -/
def DocumentChars.lookahead2 (s : DocumentChars) : Option Char × DocumentChars :=
  match s.lookaheadState with
  | .none =>
    match s.chars with
    | [] => (Option.none, { s with lookaheadState := .lookahead2 Option.none Option.none })
    | [c1] => (Option.none, { s with chars := [], lookaheadState := .lookahead2 (some c1) Option.none })
    | c1 :: c2 :: cs =>
      (some c2, { s with chars := cs, lookaheadState := .lookahead2 (some c1) (some c2) })
  | .lookahead1 l1 =>
    match s.chars with
    | [] => (Option.none, { s with lookaheadState := .lookahead2 l1 Option.none })
    | c2 :: cs => (some c2, { s with chars := cs, lookaheadState := .lookahead2 l1 (some c2) })
  | .lookahead2 _ l2 => (l2, s)

/-- `DocumentChars::position`: the boundary position between the previous and
next character. -/
def DocumentChars.positionAt (s : DocumentChars) : Position := ⟨s.position⟩

/-- `DocumentChars::advance_char`: advance only when the lookahead character
equals `c`; report whether we advanced. -/
def DocumentChars.advanceChar (s : DocumentChars) (c : Char) : Bool × DocumentChars :=
  let (la, s1) := s.lookahead
  if la = some c then (true, (s1.advance).2) else (false, s1)

/-- `DocumentChars::lookahead_is`: test the lookahead character, `false` at the
end of the document. -/
def DocumentChars.lookaheadIs (s : DocumentChars) (f : Char → Bool) : Bool × DocumentChars :=
  let (la, s1) := s.lookahead
  ((la.map f).getD false, s1)

/-- The characters sitting in the lookahead buffer, oldest first. -/
def CharsLookahead.bufChars : CharsLookahead → List Char
  | .none => []
  | .lookahead1 l1 => l1.toList
  | .lookahead2 l1 l2 => l1.toList ++ l2.toList

/-- The stream of characters a cursor has not yet consumed: the buffered
characters followed by the untouched part of the iterator. -/
def canonStream (s : DocumentChars) : List Char := s.lookaheadState.bufChars ++ s.chars

/-- The well-formedness invariant of cursor states reachable from
`Document::chars`: a `None` stored in the buffer is only ever produced by an
exhausted iterator, so nothing follows it. -/
def CharsWF (s : DocumentChars) : Prop :=
  match s.lookaheadState with
  | .none => True
  | .lookahead1 l1 => l1 = Option.none → s.chars = []
  | .lookahead2 l1 l2 =>
    (l2 = Option.none → s.chars = []) ∧ (l1 = Option.none → l2 = Option.none)

/-- One of the three cursor operations named by the specification. -/
inductive CursorOp where
  | adv
  | la
  | la2
deriving DecidableEq, Repr

/-- Run one cursor operation, keeping only the next state. -/
def cursorNext (o : CursorOp) (s : DocumentChars) : DocumentChars :=
  match o with
  | .adv => (s.advance).2
  | .la => (s.lookahead).2
  | .la2 => (s.lookahead2).2

/-- The character reported by one cursor operation. -/
def cursorOut (o : CursorOp) (s : DocumentChars) : Option Char :=
  match o with
  | .adv => (s.advance).1
  | .la => (s.lookahead).1
  | .la2 => (s.lookahead2).1

/-- Run a sequence of cursor operations. -/
def runOps (ops : List CursorOp) (s : DocumentChars) : DocumentChars :=
  match ops with
  | [] => s
  | o :: os => runOps os (cursorNext o s)

/-- The characters reported by a sequence of cursor operations, in order. -/
def outsOps (ops : List CursorOp) (s : DocumentChars) : List (Option Char) :=
  match ops with
  | [] => []
  | o :: os => cursorOut o s :: outsOps os (cursorNext o s)

/-! ## Tokens

`token.rs` and `identifier.rs` are absent from the source tree; the shapes
below are modelled from the specification (§3 "Token", glossary "Glyph") and
from how `parser.rs` and `diagnostics.rs` use them. -/

/-- Modelled from the spec: an identifier, from the missing `identifier.rs`;
only its identity matters to the embedded code, so it is a string. -/
abbrev Identifier := String

/-- Modelled from the spec: the keywords the parser dispatches on
(`Keyword` from the missing `identifier.rs`; the six constructors are the ones
`parser.rs` names). -/
inductive Keyword where
  | let_
  | true_
  | false_
  | if_
  | else_
  | do_
deriving DecidableEq, Repr

/-- Modelled from the spec: a glyph is "a punctuation or keyword token kind"
(glossary).  The constructors are the glyphs `parser.rs` names. -/
inductive Glyph where
  | keyword (k : Keyword)
  | braceLeft
  | braceRight
  | comma
  | dot
  | equals
  | parenLeft
  | parenRight
  | semicolon
  | underscore
deriving DecidableEq, Repr

/-- Modelled from the spec: a glyph token (`GlyphToken` from the missing
`token.rs`), carrying its range.  `onNewLine` records whether the token's
leading trivia contains a line break; it is what the lexer's
`lookahead_on_same_line` consults. -/
structure GlyphToken where
  range : Range
  onNewLine : Bool
  glyph : Glyph
deriving DecidableEq, Repr

/-- Modelled from the spec: an identifier token from the missing `token.rs`. -/
structure IdentifierToken where
  range : Range
  onNewLine : Bool
  identifier : Identifier
deriving DecidableEq, Repr

/-- Modelled from the spec: a number token from the missing `token.rs`; the
raw source text of the number is kept, uninterpreted. -/
structure NumberToken where
  range : Range
  onNewLine : Bool
  raw : String
deriving DecidableEq, Repr

/-- Modelled from the spec: the end-of-input token from the missing
`token.rs`. -/
structure EndToken where
  position : Position
  onNewLine : Bool
deriving DecidableEq, Repr

/-- Modelled from the spec: "a tagged variant over
glyph/identifier/number/end-of-input kinds, each carrying a Range" (§3). -/
inductive Token where
  | glyph (t : GlyphToken)
  | identifier (t : IdentifierToken)
  | number (t : NumberToken)
  | end_ (t : EndToken)
deriving DecidableEq, Repr

/-- `Token::is_end`. -/
def Token.isEnd : Token → Bool
  | .end_ _ => true
  | _ => false

/-- `Token::is_glyph`. -/
def Token.isGlyph (t : Token) (g : Glyph) : Bool :=
  match t with
  | .glyph gt => gt.glyph = g
  | _ => false

/-! ## Diagnostics (diagnostics.rs)

The payload types that `diagnostics.rs` imports from the missing `language`
and `parser` modules are modelled minimally below; the collection never
inspects them. -/

/-- Modelled from the spec: an identifier-like keyword from the missing
`token.rs` (`IdentifierKeyword`); only its text is relevant. -/
structure IdentifierKeyword where
  text : String
deriving DecidableEq, Repr

/-- Modelled from the spec: a constant of the missing `language` module, used
only inside diagnostic snippets. -/
structure LangConstant where
  printed : String
deriving DecidableEq, Repr

/-- Modelled from the spec: a prefix operator of the missing `language`
module. -/
structure PrefixOperator where
  printed : String
deriving DecidableEq, Repr

/-- Modelled from the spec: a logical operator of the missing `language`
module (`&&` or `||`, per `OperatorSnippet`). -/
structure LogicalOperator where
  printed : String
deriving DecidableEq, Repr

/-- `UnexpectedSyntax`: some syntax the parser did not expect. -/
inductive UnexpectedSyntax where
  | glyph (g : Glyph)
  | identifier
  | number
  | char (c : Char)
deriving DecidableEq, Repr

/-- `ExpectedSyntax`: some syntax the parser expected but did not receive. -/
inductive ExpectedSyntax where
  | glyph (g : Glyph)
  | identifier
  | identifierKeyword (k : IdentifierKeyword)
  | blockCommentEnd
  | decimalDigit
  | binaryDigit
  | hexadecimalDigit
  | declaration
  | classMember
  | statement
  | expression
  | pattern
  | type_
deriving DecidableEq, Repr

/-- `VecSnippet`: a snippet of a vector, keeping at most two items. -/
inductive VecSnippet (Item : Type) where
  | vec0
  | vec1 (item1 : Item)
  | vec2 (item1 item2 : Item)
  | vecN (item1 item2 : Item)
deriving DecidableEq, Repr

/-- `PatternSnippet`. -/
inductive PatternSnippet where
  | binding (i : Identifier)
deriving DecidableEq, Repr

/-- `ExpressionSnippet`. -/
inductive ExpressionSnippet where
  | constant (c : LangConstant)
  | reference (i : Identifier)
  | function (params : VecSnippet PatternSnippet)
  | call (callee : ExpressionSnippet)
  | prefix_ (op : PrefixOperator) (operand : ExpressionSnippet)
  | logical (lhs : ExpressionSnippet) (op : LogicalOperator) (rhs : ExpressionSnippet)
  | block
deriving DecidableEq, Repr

/-- `StatementSnippet`. -/
inductive StatementSnippet where
  | expression (e : ExpressionSnippet)
  | binding (p : PatternSnippet) (e : ExpressionSnippet)
deriving DecidableEq, Repr

/-- `OperatorSnippet`. -/
inductive OperatorSnippet where
  | not
  | and
  | or
deriving DecidableEq, Repr

/-- `OperationSnippet`. -/
inductive OperationSnippet where
  | expressionAnnotation (e : ExpressionSnippet)
  | bindingStatementAnnotation (p : PatternSnippet) (e : ExpressionSnippet)
  | functionReturnAnnotation (s : Option StatementSnippet)
  | functionCall (e : ExpressionSnippet)
  | operatorExpression (op : OperatorSnippet)
deriving DecidableEq, Repr

/-- `TypeKindSnippet`. -/
inductive TypeKindSnippet where
  | never
  | void
  | boolean
  | number
  | integer
  | float
  | function
deriving DecidableEq, Repr

/-- `ErrorDiagnosticMessage`: every error diagnostic the compiler can raise. -/
inductive ErrorDiagnosticMessage where
  | unexpectedSyntax (unexpected : UnexpectedSyntax) (expected : ExpectedSyntax)
  | unexpectedEnding (expected : ExpectedSyntax)
  | identifierNotFound (identifier : Identifier)
  | declarationNameAlreadyUsed (identifier : Identifier) (declarationRange : Range)
  | declarationCycleDetected (identifier : Identifier) (declarationRange : Range)
  | canOnlyExtendBaseClass (identifier : Identifier) (declarationRange : Range)
  | incompatibleTypes (operation : OperationSnippet) (range1 : Range)
      (snippet1 : TypeKindSnippet) (range2 : Range) (snippet2 : TypeKindSnippet)
  | incompatibleFunctionParameterLengths (operation : OperationSnippet)
      (range1 : Range) (len1 : Nat) (range2 : Range) (len2 : Nat)
  | missingFunctionParameterType (pattern : PatternSnippet)
  | cannotCall (calleeRange : Range) (calleeType : TypeKindSnippet)
deriving DecidableEq, Repr

/-- `WarningDiagnosticMessage`: an empty enum in the source. -/
inductive WarningDiagnosticMessage where
deriving DecidableEq

/-- `InfoDiagnosticMessage`: an empty enum in the source. -/
inductive InfoDiagnosticMessage where
deriving DecidableEq

/-- `DiagnosticMessage`: severity plus the message data. -/
inductive DiagnosticMessage where
  | error (m : ErrorDiagnosticMessage)
  | warning (m : WarningDiagnosticMessage)
  | info (m : InfoDiagnosticMessage)
deriving DecidableEq

/-- `Diagnostic`: a range plus a message. -/
structure Diagnostic where
  range : Range
  message : DiagnosticMessage
deriving DecidableEq

/-- `DiagnosticRef`: an opaque reference to a reported diagnostic.  The `Rc`
sharing of the source is modelled by holding the diagnostic value itself. -/
structure DiagnosticRef where
  target : Diagnostic
deriving DecidableEq

/-- `Deref for DiagnosticRef`. -/
def DiagnosticRef.deref (r : DiagnosticRef) : Diagnostic := r.target

/-- `DiagnosticsCollection`: the diagnostics reported so far, in report
order (`Vec<Rc<Diagnostic>>`). -/
structure DiagnosticsCollection where
  diagnostics : List Diagnostic
deriving DecidableEq

/-- `DiagnosticsCollection::new`. -/
def DiagnosticsCollection.new : DiagnosticsCollection := ⟨[]⟩

/-- `DiagnosticsCollection::report`: push the diagnostic and hand back a
reference to it. -/
def DiagnosticsCollection.report (c : DiagnosticsCollection) (d : Diagnostic) :
    DiagnosticRef × DiagnosticsCollection :=
  (⟨d⟩, ⟨c.diagnostics ++ [d]⟩)

/-- `DiagnosticsCollection::is_empty`. -/
def DiagnosticsCollection.isEmpty (c : DiagnosticsCollection) : Bool :=
  c.diagnostics.isEmpty

/-! ## The AST

`ast.rs` is absent from the source tree.  The node shapes below are modelled
from the spec (§3 "AST node", §9 "binding statements, expression statements,
conditional/block/wrapped/call/property expressions, variable/hole patterns")
and from the constructor calls in `parser.rs` (`Module::new(items, end)`,
`BindingStatement::new(let_, pattern, equals, value, semicolon)`, …).  The
wrapper structs `VariableExpression`, `NumberConstant`, `BooleanConstant`,
`BlockExpression`, `VariablePattern` and `HolePattern` are flattened into
constructor arguments. -/

/-- Modelled from the spec: a constant expression; carries the token it was
parsed from. -/
inductive Constant where
  | boolean (token : GlyphToken) (value : Bool)
  | number (token : NumberToken)
deriving DecidableEq, Repr

/-- Modelled from the spec: a pattern (variable or hole). -/
inductive Pattern where
  | variable (token : IdentifierToken)
  | hole (token : GlyphToken)
deriving DecidableEq, Repr

mutual

/-- Modelled from the spec: an item of a module or block.  `parse_item` is an
empty (non-compiling) stub in `parser.rs`; per the spec's §4.4 and §9 an item
is parsed by the statement parser, so an item wraps a statement. -/
inductive Item where
  | statement (s : Statement)

/-- Modelled from the spec: a statement. -/
inductive Statement where
  | binding (b : BindingStatement)
  | expression (e : ExpressionStatement)

/-- Modelled from the spec: `let pattern = value;`
(`BindingStatement::new(let_, pattern, equals, value, semicolon)`). -/
inductive BindingStatement where
  | mk (let_ : GlyphToken) (pattern : Pattern) (equals : GlyphToken)
      (value : Expression) (semicolon : Option GlyphToken)

/-- Modelled from the spec: an expression statement with an optional
semicolon. -/
inductive ExpressionStatement where
  | mk (expression : Expression) (semicolon : Option GlyphToken)

/-- Modelled from the spec: the expression forms `parser.rs` constructs. -/
inductive Expression where
  | variable (token : IdentifierToken)
  | constant (c : Constant)
  | conditional (c : ConditionalExpression)
  | block (do_ : GlyphToken) (b : Block)
  | wrapped (parenLeft : GlyphToken) (expression : Expression) (parenRight : GlyphToken)
  | property (target : Expression) (dot : GlyphToken) (prop : IdentifierToken)
  | call (callee : Expression) (parenLeft : GlyphToken)
      (arguments : List CommaListItem) (parenRight : GlyphToken)

/-- Modelled from the spec: one item of a comma-separated list with
its optional trailing comma (`CommaListItem::new(item, comma)`),
instantiated at expressions, the only item type `parser.rs` uses. -/
inductive CommaListItem where
  | mk (item : Expression) (comma : Option GlyphToken)

/-- Modelled from the spec: `if test { .. } else { .. }`. -/
inductive ConditionalExpression where
  | mk (if_ : GlyphToken) (test : Expression) (consequent : Block)
      (alternate : Option ConditionalAlternate)

/-- Modelled from the spec: the `else` part of a conditional. -/
inductive ConditionalAlternate where
  | mk (else_ : GlyphToken) (block : Block)

/-- Modelled from the spec: `{ items }`
(`Block::new(brace_left, items, brace_right)`). -/
inductive Block where
  | mk (braceLeft : GlyphToken) (items : List Item) (braceRight : GlyphToken)

end

/-- Modelled from the spec: a module, "parsed consuming all tokens in the
stream" (`Module::new(items, end)`). -/
structure Module where
  items : List Item
  end_ : EndToken

/-- The token list of an optional glyph token. -/
def optGlyphTokens : Option GlyphToken → List Token
  | Option.none => []
  | some t => [Token.glyph t]

/-- The token a constant was parsed from. -/
def Constant.intoTokens : Constant → List Token
  | .boolean t _ => [Token.glyph t]
  | .number t => [Token.number t]

/-- The token a pattern was parsed from. -/
def Pattern.intoTokens : Pattern → List Token
  | .variable t => [Token.identifier t]
  | .hole t => [Token.glyph t]

mutual

/-- Modelled from the spec: re-serialize an item into the token sequence it
was parsed from (the `into_tokens` traversal asserted by `source/mod.rs`). -/
def Item.intoTokens : Item → List Token
  | .statement s => s.intoTokens

/-- Re-serialize a list of items. -/
def itemsIntoTokens : List Item → List Token
  | [] => []
  | i :: rest => i.intoTokens ++ itemsIntoTokens rest

/-- Re-serialize a statement. -/
def Statement.intoTokens : Statement → List Token
  | .binding b => b.intoTokens
  | .expression e => e.intoTokens

/-- Re-serialize a binding statement. -/
def BindingStatement.intoTokens : BindingStatement → List Token
  | .mk let_ pattern equals value semicolon =>
    Token.glyph let_ :: (pattern.intoTokens ++ (Token.glyph equals :: (value.intoTokens ++ optGlyphTokens semicolon)))

/-- Re-serialize an expression statement. -/
def ExpressionStatement.intoTokens : ExpressionStatement → List Token
  | .mk expression semicolon => expression.intoTokens ++ optGlyphTokens semicolon

/-- Re-serialize an expression. -/
def Expression.intoTokens : Expression → List Token
  | .variable t => [Token.identifier t]
  | .constant c => c.intoTokens
  | .conditional c => c.intoTokens
  | .block do_ b => Token.glyph do_ :: b.intoTokens
  | .wrapped pl e pr => Token.glyph pl :: (e.intoTokens ++ [Token.glyph pr])
  | .property target dot prop => target.intoTokens ++ [Token.glyph dot, Token.identifier prop]
  | .call callee pl args pr =>
    callee.intoTokens ++ (Token.glyph pl :: (commaListIntoTokens args ++ [Token.glyph pr]))

/-- Re-serialize a comma list. -/
def commaListIntoTokens : List CommaListItem → List Token
  | [] => []
  | .mk item comma :: rest => item.intoTokens ++ optGlyphTokens comma ++ commaListIntoTokens rest

/-- Re-serialize a conditional expression. -/
def ConditionalExpression.intoTokens : ConditionalExpression → List Token
  | .mk if_ test consequent alternate =>
    Token.glyph if_ :: (test.intoTokens ++ consequent.intoTokens ++
      (match alternate with
       | Option.none => []
       | some a => a.intoTokens))

/-- Re-serialize a conditional alternate. -/
def ConditionalAlternate.intoTokens : ConditionalAlternate → List Token
  | .mk else_ b => Token.glyph else_ :: b.intoTokens

/-- Re-serialize a block. -/
def Block.intoTokens : Block → List Token
  | .mk bl items br => Token.glyph bl :: (itemsIntoTokens items ++ [Token.glyph br])

end

/-- `Module::into_tokens`, modelled from the spec: walking the module AST
re-emits every token it was parsed from, ending with the end token. -/
def Module.intoTokens (m : Module) : List Token :=
  itemsIntoTokens m.items ++ [Token.end_ m.end_]

/-! ## The parser (parser.rs)

The parser state is the lexer (modelled as the not-yet-consumed token stream,
since the missing `lexer.rs` produces tokens on demand and, per the spec, ends
every stream with the end-of-input token) plus the recoverable-glyph reference
counts (`HashMap<Glyph, usize>`, modelled as an association list with distinct
keys).  A Rust panic (`unimplemented!()` / `unreachable!()`) is modelled by
the `Panic` error channel; the `Nat` fuel argument only bounds the recursion
depth of the embedding, with exhaustion reported as `PErr.fuel`, an outcome
distinct from every behavior of the source. -/

/-- A Rust panic, tagged with the function containing the panicking macro. -/
inductive Panic where
  | unimplemented (location : String)
  | unreachable (location : String)
deriving DecidableEq, Repr

/-- Abnormal outcomes of the embedded parser: a panic of the source, or fuel
exhaustion of the embedding (never the source's behavior). -/
inductive PErr where
  | panic (p : Panic)
  | fuel
deriving DecidableEq, Repr

/-- The mutable state of `Parser`: the token stream of the lexer and the
recoverable-glyph counts. -/
structure PState where
  tokens : List Token
  recoverable : List (Glyph × Nat)
deriving DecidableEq, Repr

/-- The outcome of an embedded parser function: a value plus the successor
state, or an abnormal outcome. -/
abbrev PRes (α : Type) := Except PErr (α × PState)

/-- `Lexer::advance`, modelled from the spec: pop the next token.  The lexer
never runs out of tokens (it ends with, and then sticks at, the end token), so
an empty list is an unreachable state of the embedding. -/
def PState.advanceT (s : PState) : PRes Token :=
  match s.tokens with
  | [] => .error (.panic (.unreachable "Lexer.advance"))
  | t :: ts => .ok (t, ⟨ts, s.recoverable⟩)

/-- `Lexer::lookahead`, modelled from the spec: the next token, without
consuming it. -/
def PState.lookaheadT (s : PState) : Except PErr Token :=
  match s.tokens with
  | [] => .error (.panic (.unreachable "Lexer.lookahead"))
  | t :: _ => .ok t

/-- The new-line flag of a token (see `GlyphToken.onNewLine`). -/
def Token.onNewLine : Token → Bool
  | .glyph t => t.onNewLine
  | .identifier t => t.onNewLine
  | .number t => t.onNewLine
  | .end_ t => t.onNewLine

/-- `Lexer::lookahead_on_same_line`, modelled from the spec: the next token,
but only when no line break separates it from the current position. -/
def PState.lookaheadOnSameLine (s : PState) : Except PErr (Option Token) :=
  match s.tokens with
  | [] => .error (.panic (.unreachable "Lexer.lookahead_on_same_line"))
  | t :: _ => .ok (if t.onNewLine then Option.none else some t)

/-- `HashMap::get_mut` + increment / `insert(glyph, 1)`: bump the count of a
glyph, adding a fresh entry at 1 when absent. -/
def bumpGlyph (g : Glyph) : List (Glyph × Nat) → List (Glyph × Nat)
  | [] => [(g, 1)]
  | (h, n) :: rest => if h = g then (h, n + 1) :: rest else (h, n) :: bumpGlyph g rest

/-- `HashMap::get_mut` + decrement, removing the entry when the count reaches
zero; a no-op when the glyph is absent (mirroring the `if let Some(n)` of
`recover_at`). -/
def dropGlyph (g : Glyph) : List (Glyph × Nat) → List (Glyph × Nat)
  | [] => []
  | (h, n) :: rest =>
    if h = g then (if n - 1 = 0 then rest else (h, n - 1) :: rest)
    else (h, n) :: dropGlyph g rest

/-- `HashMap::contains_key`. -/
def containsGlyph (g : Glyph) (m : List (Glyph × Nat)) : Bool :=
  m.any (fun p => p.1 = g)

/-- `Parser::recover_at`: bump the count of `glyph`, run the parse function,
then decrement the count (removing the entry at zero).  A panic propagates
without the decrement, exactly as a Rust panic unwinds past the manual
decrement of the source. -/
def recoverAt {α : Type} (glyph : Glyph) (f : PState → PRes α) (s : PState) : PRes α :=
  match f ⟨s.tokens, bumpGlyph glyph s.recoverable⟩ with
  | .ok (a, s1) => .ok (a, ⟨s1.tokens, dropGlyph glyph s1.recoverable⟩)
  | .error e => .error e

/-- The skip loop of `Parser::recover`: skip tokens until the lookahead is the
end token or a recoverable glyph (then `/* error */ unimplemented!()`), or
until the parse function finally succeeds (then `/* skipped */
unimplemented!()`).  Note both exits of the loop are unimplemented panics in
the source. -/
def recoverLoop {α : Type} (fuel : Nat) (parse : PState → Except PErr (Option α × PState))
    (s : PState) : PRes α :=
  match fuel with
  | 0 => .error .fuel
  | fuel + 1 =>
    match s.lookaheadT with
    | .error e => .error e
    | .ok t =>
      let recover : Bool :=
        match t with
        | .end_ _ => true
        | .glyph gt => containsGlyph gt.glyph s.recoverable
        | _ => false
      if recover then .error (.panic (.unimplemented "Parser.recover/error"))
      else
        match s.advanceT with
        | .error e => .error e
        | .ok (_, s1) =>
          match parse s1 with
          | .error e => .error e
          | .ok (some _, _) => .error (.panic (.unimplemented "Parser.recover/skipped"))
          | .ok (Option.none, s2) => recoverLoop fuel parse s2

/-- `Parser::recover`: first try the parse function directly (the fast path);
on failure enter the skip loop. -/
def recover {α : Type} (fuel : Nat) (parse : PState → Except PErr (Option α × PState))
    (s : PState) : PRes α :=
  match parse s with
  | .error e => .error e
  | .ok (some node, s1) => .ok (node, s1)
  | .ok (Option.none, s1) => recoverLoop fuel parse s1

/-- `Parser::try_parse_glyph`: consume the lookahead token only when it is the
requested glyph. -/
def tryParseGlyph (glyph : Glyph) (s : PState) : Option GlyphToken × PState :=
  match s.tokens with
  | Token.glyph t :: rest =>
    if t.glyph = glyph then (some t, ⟨rest, s.recoverable⟩) else (Option.none, s)
  | _ => (Option.none, s)

/-- `Parser::try_parse_glyph_on_same_line`: like `tryParseGlyph`, but only when
the glyph is on the same line as the current position. -/
def tryParseGlyphOnSameLine (glyph : Glyph) (s : PState) : Option GlyphToken × PState :=
  match s.tokens with
  | Token.glyph t :: rest =>
    if !t.onNewLine ∧ t.glyph = glyph then (some t, ⟨rest, s.recoverable⟩)
    else (Option.none, s)
  | _ => (Option.none, s)

/-- `Parser::parse_glyph`: advance and insist on the requested glyph; any
other token reaches the trailing `unimplemented!()` of the source. -/
def parseGlyph (glyph : Glyph) (s : PState) : PRes GlyphToken :=
  match s.advanceT with
  | .error e => .error e
  | .ok (Token.glyph t, s1) =>
    if t.glyph = glyph then .ok (t, s1)
    else .error (.panic (.unimplemented "Parser.parse_glyph"))
  | .ok (_, _) => .error (.panic (.unimplemented "Parser.parse_glyph"))

/-- `Parser::parse_identifier`: advance and insist on an identifier token. -/
def parseIdentifier (s : PState) : PRes IdentifierToken :=
  match s.advanceT with
  | .error e => .error e
  | .ok (Token.identifier t, s1) => .ok (t, s1)
  | .ok (_, _) => .error (.panic (.unimplemented "Parser.parse_identifier"))

/-- `Parser::parse_pattern`: a variable pattern from an identifier, a hole
pattern from `_`; everything else is an `unimplemented!()` panic. -/
def parsePattern (s : PState) : PRes Pattern :=
  match s.advanceT with
  | .error e => .error e
  | .ok (Token.identifier t, s1) => .ok (.variable t, s1)
  | .ok (Token.glyph t, s1) =>
    if t.glyph = .underscore then .ok (.hole t, s1)
    else .error (.panic (.unimplemented "Parser.parse_pattern"))
  | .ok (_, _) => .error (.panic (.unimplemented "Parser.parse_pattern"))

mutual

/-- `Parser::parse_module`: parse items until the end token, consume the end
token (any other token is `unreachable!()`), and build the module.  The
`debug_assert!(self.recoverable.is_empty())` of the source is not a state
change; it is proved as a theorem below. -/
def parseModule (fuel : Nat) (s : PState) : PRes Module :=
  match fuel with
  | 0 => .error .fuel
  | fuel + 1 =>
    match parseItemList fuel Token.isEnd s with
    | .error e => .error e
    | .ok (items, s1) =>
      match s1.advanceT with
      | .error e => .error e
      | .ok (Token.end_ endTok, s2) => .ok (⟨items, endTok⟩, s2)
      | .ok (_, _) => .error (.panic (.unreachable "Parser.parse_module"))

/-- `Parser::parse_item_list`: parse items while the lookahead does not
satisfy `until`. -/
def parseItemList (fuel : Nat) (until_ : Token → Bool) (s : PState) : PRes (List Item) :=
  match fuel with
  | 0 => .error .fuel
  | fuel + 1 =>
    match s.lookaheadT with
    | .error e => .error e
    | .ok t =>
      if until_ t then .ok ([], s)
      else
        match parseItem fuel s with
        | .error e => .error e
        | .ok (item, s1) =>
          match parseItemList fuel until_ s1 with
          | .error e => .error e
          | .ok (items, s2) => .ok (item :: items, s2)

/-- `Parser::parse_item`.  Modelled from the spec: the body of `parse_item` is
an empty stub in `parser.rs`; per §4.4 and §9 of the spec the evidenced item
grammar is the statement grammar, so an item parses as a statement. -/
def parseItem (fuel : Nat) (s : PState) : PRes Item :=
  match fuel with
  | 0 => .error .fuel
  | fuel + 1 =>
    match parseStatement fuel s with
    | .error e => .error e
    | .ok (st, s1) => .ok (.statement st, s1)

/-- `Parser::parse_statement`: statements register `;` as a recovery point
around the real statement parser. -/
def parseStatement (fuel : Nat) (s : PState) : PRes Statement :=
  match fuel with
  | 0 => .error .fuel
  | fuel + 1 => recoverAt .semicolon (actuallyParseStatement fuel) s

/-- `Parser::actually_parse_statement`: a binding statement after `let`
(pattern recovery scoped to `=`), otherwise an expression statement. -/
def actuallyParseStatement (fuel : Nat) (s : PState) : PRes Statement :=
  match fuel with
  | 0 => .error .fuel
  | fuel + 1 =>
    match tryParseGlyph (.keyword .let_) s with
    | (some letTok, s1) =>
      match recoverAt .equals parsePattern s1 with
      | .error e => .error e
      | .ok (pattern, s2) =>
        match parseGlyph .equals s2 with
        | .error e => .error e
        | .ok (equals, s3) =>
          match parseExpression fuel s3 with
          | .error e => .error e
          | .ok (value, s4) =>
            match tryParseGlyph .semicolon s4 with
            | (semicolon, s5) => .ok (.binding (.mk letTok pattern equals value semicolon), s5)
    | (Option.none, _) =>
      match parseExpression fuel s with
      | .error e => .error e
      | .ok (expression, s1) =>
        match tryParseGlyph .semicolon s1 with
        | (semicolon, s2) => .ok (.expression (.mk expression semicolon), s2)

/-- `Parser::parse_expression`, first half: dispatch on the consumed token
(variable, number, `true`, `false`, `if`, `do`, `(`); the remaining glyph and
token kinds are `unimplemented!()` panics.  The trailing extension loop is
`parseExpressionExtensions`. -/
def parseExpression (fuel : Nat) (s : PState) : PRes Expression :=
  match fuel with
  | 0 => .error .fuel
  | fuel + 1 =>
    match s.advanceT with
    | .error e => .error e
    | .ok (Token.identifier t, s1) => parseExpressionExtensions fuel (.variable t) s1
    | .ok (Token.number t, s1) => parseExpressionExtensions fuel (.constant (.number t)) s1
    | .ok (Token.glyph t, s1) =>
      match t.glyph with
      | .keyword .true_ => parseExpressionExtensions fuel (.constant (.boolean t true)) s1
      | .keyword .false_ => parseExpressionExtensions fuel (.constant (.boolean t false)) s1
      | .keyword .if_ =>
        match parseExpression fuel s1 with
        | .error e => .error e
        | .ok (test, s2) =>
          match parseBlock fuel s2 with
          | .error e => .error e
          | .ok (consequent, s3) =>
            match tryParseGlyph (.keyword .else_) s3 with
            | (some elseTok, s4) =>
              match parseBlock fuel s4 with
              | .error e => .error e
              | .ok (alternate, s5) =>
                parseExpressionExtensions fuel
                  (.conditional (.mk t test consequent (some (.mk elseTok alternate)))) s5
            | (Option.none, s4) =>
              parseExpressionExtensions fuel
                (.conditional (.mk t test consequent Option.none)) s4
      | .keyword .do_ =>
        match parseBlock fuel s1 with
        | .error e => .error e
        | .ok (b, s2) => parseExpressionExtensions fuel (.block t b) s2
      | .parenLeft =>
        match parseExpression fuel s1 with
        | .error e => .error e
        | .ok (e, s2) =>
          match parseGlyph .parenRight s2 with
          | .error err => .error err
          | .ok (parenRight, s3) =>
            parseExpressionExtensions fuel (.wrapped t e parenRight) s3
      | _ => .error (.panic (.unimplemented "Parser.parse_expression"))
    | .ok (Token.end_ _, _) => .error (.panic (.unimplemented "Parser.parse_expression"))

/-- The extension loop of `Parser::parse_expression`: repeatedly extend the
expression with a property access (`.name`) or a same-line call
(`(arguments)`); stop at the first non-match. -/
def parseExpressionExtensions (fuel : Nat) (e : Expression) (s : PState) : PRes Expression :=
  match fuel with
  | 0 => .error .fuel
  | fuel + 1 =>
    match tryParseGlyph .dot s with
    | (some dot, s1) =>
      match parseIdentifier s1 with
      | .error err => .error err
      | .ok (prop, s2) => parseExpressionExtensions fuel (.property e dot prop) s2
    | (Option.none, _) =>
      match tryParseGlyphOnSameLine .parenLeft s with
      | (some parenLeft, s1) =>
        match parseCommaList fuel (fun t => t.isGlyph .parenRight) s1 with
        | .error err => .error err
        | .ok (arguments, s2) =>
          match parseGlyph .parenRight s2 with
          | .error err => .error err
          | .ok (parenRight, s3) =>
            parseExpressionExtensions fuel (.call e parenLeft arguments parenRight) s3
      | (Option.none, _) => .ok (e, s)

/-- `Parser::parse_comma_list`, instantiated — as at its only call site — with
`parse_expression` as the item parser: parse comma-separated items until the
terminator, allowing a trailing comma; a missing comma before a non-terminator
is the trailing `unimplemented!()` panic of the source. -/
def parseCommaList (fuel : Nat) (until_ : Token → Bool) (s : PState) : PRes (List CommaListItem) :=
  match fuel with
  | 0 => .error .fuel
  | fuel + 1 =>
    match s.lookaheadT with
    | .error e => .error e
    | .ok t =>
      if until_ t then .ok ([], s)
      else
        match parseExpression fuel s with
        | .error e => .error e
        | .ok (item, s1) =>
          match tryParseGlyph .comma s1 with
          | (some comma, s2) =>
            match parseCommaList fuel until_ s2 with
            | .error e => .error e
            | .ok (items, s3) => .ok (.mk item (some comma) :: items, s3)
          | (Option.none, s2) =>
            match s2.lookaheadT with
            | .error e => .error e
            | .ok t2 =>
              if until_ t2 then .ok ([.mk item Option.none], s2)
              else .error (.panic (.unimplemented "Parser.parse_comma_list"))

/-- `Parser::parse_block`: `{`, items until `}`, `}`. -/
def parseBlock (fuel : Nat) (s : PState) : PRes Block :=
  match fuel with
  | 0 => .error .fuel
  | fuel + 1 =>
    match parseGlyph .braceLeft s with
    | .error e => .error e
    | .ok (braceLeft, s1) =>
      match parseItemList fuel (fun t => t.isGlyph .braceRight) s1 with
      | .error e => .error e
      | .ok (items, s2) =>
        match parseGlyph .braceRight s2 with
        | .error e => .error e
        | .ok (braceRight, s3) => .ok (.mk braceLeft items braceRight, s3)

end

/-- `Parser::parse` (with `source/mod.rs` `parse`): run the module parser on
the lexer's token stream, starting with an empty recoverable map. -/
def parserParse (fuel : Nat) (tokens : List Token) : PRes Module :=
  parseModule fuel ⟨tokens, []⟩

/-! ## Well-formedness predicates and concrete inputs used by the theorems -/

/-- The lexer contract on token streams, modelled from the spec: the stream is
non-empty and the end-of-input token is exactly its last token. -/
def wfStreamB : List Token → Bool
  | [] => false
  | [t] => t.isEnd
  | t :: rest => !t.isEnd && wfStreamB rest

/-- The representation invariant of the recoverable map: distinct keys (it
models a `HashMap`) and no entry with count zero (entries are inserted at 1
and removed when decremented to 0). -/
def WFRec (m : List (Glyph × Nat)) : Prop :=
  (m.map Prod.fst).Nodup ∧ ∀ p ∈ m, 1 ≤ p.2

/-- A glyph token for concrete test inputs (`o` offset, `l` length). -/
def demoGlyphToken (o l : Nat) (g : Glyph) : GlyphToken := ⟨⟨⟨o⟩, l⟩, false, g⟩

/-- An identifier token for concrete test inputs. -/
def demoIdentifierToken (o l : Nat) (n : String) : IdentifierToken := ⟨⟨⟨o⟩, l⟩, false, n⟩

/-- A number token for concrete test inputs. -/
def demoNumberToken (o l : Nat) (n : String) : NumberToken := ⟨⟨⟨o⟩, l⟩, false, n⟩

/-- An end token for concrete test inputs. -/
def demoEndToken (o : Nat) : EndToken := ⟨⟨o⟩, false⟩

/-- The token stream of the well-formed input `"let x = 1;"`. -/
def demoTokens : List Token :=
  [.glyph (demoGlyphToken 0 3 (.keyword .let_)),
   .identifier (demoIdentifierToken 4 1 "x"),
   .glyph (demoGlyphToken 6 1 .equals),
   .number (demoNumberToken 8 1 "1"),
   .glyph (demoGlyphToken 9 1 .semicolon),
   .end_ (demoEndToken 10)]

/-- The module the parser builds from `demoTokens`. -/
def demoModule : Module :=
  ⟨[.statement (.binding (.mk (demoGlyphToken 0 3 (.keyword .let_))
      (.variable (demoIdentifierToken 4 1 "x"))
      (demoGlyphToken 6 1 .equals)
      (.constant (.number (demoNumberToken 8 1 "1")))
      (some (demoGlyphToken 9 1 .semicolon))))],
   demoEndToken 10⟩

/-- The token stream of `"let x 1;"` (missing `=`). -/
def letX1Tokens : List Token :=
  [.glyph (demoGlyphToken 0 3 (.keyword .let_)),
   .identifier (demoIdentifierToken 4 1 "x"),
   .number (demoNumberToken 6 1 "1"),
   .glyph (demoGlyphToken 7 1 .semicolon),
   .end_ (demoEndToken 8)]

/-- The token stream of `"let = 1;"` (missing pattern). -/
def letEq1Tokens : List Token :=
  [.glyph (demoGlyphToken 0 3 (.keyword .let_)),
   .glyph (demoGlyphToken 4 1 .equals),
   .number (demoNumberToken 6 1 "1"),
   .glyph (demoGlyphToken 7 1 .semicolon),
   .end_ (demoEndToken 8)]

/-- The token stream of `"("` (truncated expression). -/
def parenTokens : List Token :=
  [.glyph (demoGlyphToken 0 1 .parenLeft), .end_ (demoEndToken 1)]

/-- The document of §8's character-offset example: `"A ß 丁 🜁"` without the
spaces (UTF-8 byte lengths 1, 2, 3, 4). -/
def exampleDocument : Document := Document.new "document.txt" "Aß丁🜁".data

/-! # Theorems -/

/-! ## C10: the diagnostics collection -/

/-- C10: `DiagnosticsCollection::report(d)` always appends `d` to the
collection — unconditionally, with no deduplication against previously
reported diagnostics, whatever their ranges — returning a reference that
dereferences to exactly `d`, preserving every previously reported diagnostic
in report order, and leaving `is_empty()` false. -/
theorem c10_report_always_appends (c : DiagnosticsCollection) (d : Diagnostic) :
    (c.report d).2.diagnostics = c.diagnostics ++ [d]
    ∧ (c.report d).1.deref = d
    ∧ (c.report d).2.isEmpty = false := by
  refine ⟨rfl, rfl, ?_⟩
  simp [DiagnosticsCollection.report, DiagnosticsCollection.isEmpty]

/-! ## C3: the line index -/

/-- C3: `Document::new` produces the line starts `[4, 8, 13]` on the spec's
example, but on the text `"\r\n"` — whose final two bytes are `\r\n` — it
records two line starts, `[1, 2]`, instead of the single entry `[3 - 1] = [2]`
the claim requires: the skip guard `i + 1 < bytes.len()` wrongly excludes a
document-final `\r\n` pair, contradicting the code's own comment ("We only
want to add a single line for the sequence `\r\n`"). -/
theorem c3_document_new_line_starts :
    (Document.new "document.txt" "abc\ndef\rghi\r\njkl".data).lines = [⟨4⟩, ⟨8⟩, ⟨13⟩]
    ∧ (Document.new "document.txt" "\r\n".data).lines = [⟨1⟩, ⟨2⟩]
    ∧ [(⟨1⟩ : Position), ⟨2⟩] ≠ [⟨2⟩] := by
  refine ⟨by decide, by decide, by decide⟩

/-! ## C9: totality of `Range` -/

/-- C9 counterexample: at `start = u32::MAX` and `length = 1` the `u32` sum in
`Range::end` wraps around (panicking in debug builds), so `end()` does not
return the position `start + length`. -/
theorem c9_counterexample_end_wraps :
    (Range.new ⟨u32Mod - 1⟩ 1).end_ = ⟨0⟩
    ∧ (⟨0⟩ : Position) ≠ ⟨(u32Mod - 1) + 1⟩ := by
  refine ⟨by decide, by decide⟩

/-- C9 (amended): for every `u32` start position and length, `Range::new`
succeeds and stores them unchanged, and `end()` returns the position
`(start + length) % 2^32` — which equals `start + length` exactly when the sum
fits in `u32`; positions past the end of a document's text are never
rejected (no operation consults a document). -/
theorem c9_range_total_within_u32 (p : Position) (n : Nat)
    (hp : p.offset < u32Mod) (hn : n < u32Mod) :
    (Range.new p n).start = p
    ∧ (Range.new p n).length = n
    ∧ (Range.new p n).end_ = ⟨(p.offset + n) % u32Mod⟩
    ∧ (p.offset + n < u32Mod → (Range.new p n).end_ = ⟨p.offset + n⟩) := by
  refine ⟨rfl, rfl, rfl, fun h => ?_⟩
  simp [Range.new, Range.end_, Nat.mod_eq_of_lt h]

/-- Witness for C9's amended theorem at `start = 5`, `length = 7`. -/
theorem c9_range_total_within_u32_witness : (Range.new ⟨5⟩ 7).end_ = ⟨12⟩ :=
  (c9_range_total_within_u32 ⟨5⟩ 7 (by decide) (by decide)).2.2.2 (by decide)

/-! ## C1 and C6: the parser panics on malformed input -/

/-- C1: on the input `"let x 1;"` (a syntax error: missing `=`) the parse
reaches the trailing `unimplemented!()` of `Parser::parse_glyph` and panics
instead of downgrading the error to a diagnostic, and the resynchronization
loop of `Parser::recover` itself panics (`/* error */ unimplemented!()`) as
soon as a failed parse reaches a stop condition — here shown with a parse
function that never produces a node, made to stop at the end token. -/
theorem c1_parse_panics_on_syntax_error :
    parserParse 32 letX1Tokens = .error (.panic (.unimplemented "Parser.parse_glyph"))
    ∧ (recover 8 (fun s => Except.ok (Option.none, s)) ⟨letX1Tokens, []⟩ : PRes Nat)
        = .error (.panic (.unimplemented "Parser.recover/error")) :=
  ⟨rfl, rfl⟩

/-- C6: on the input `"let = 1;"` the parser does not produce the claimed
diagnostic ("expected a variable name") with an error pattern node and a
complete binding statement: `Parser::parse_pattern` hits its `unimplemented!()`
branch on the `=` token and panics — `parse_pattern` never consults the
recovery machinery, and `Parser::recover`'s own error branch is unimplemented
too. -/
theorem c6_missing_pattern_panics :
    parserParse 32 letEq1Tokens = .error (.panic (.unimplemented "Parser.parse_pattern")) :=
  rfl

/-! ## C2: the round-trip law -/

/-- At every recursion budget, parsing `"("` either exhausts the budget (small
budgets only) or panics in `Parser::parse_expression`. -/
theorem parenTokens_parse_cases (fuel : Nat) :
    parseModule fuel ⟨parenTokens, []⟩ = .error .fuel
    ∨ parseModule fuel ⟨parenTokens, []⟩
        = .error (.panic (.unimplemented "Parser.parse_expression")) := by
  rcases fuel with _ | _ | _ | _ | _ | _ | _ | n
  · exact Or.inl rfl
  · exact Or.inl rfl
  · exact Or.inl rfl
  · exact Or.inl rfl
  · exact Or.inl rfl
  · exact Or.inl rfl
  · exact Or.inl rfl
  · exact Or.inr rfl

/-- C2 counterexample: for the document `"("` the parse returns no module —
at the recursion budget 1000 (far beyond the two tokens of the stream) it
panics inside `Parser::parse_expression` — so
`tokens_of(parse(document).module) == lex(document)` fails at this document
for want of any module; `parenTokens_parse_cases` extends this to every
budget. -/
theorem c2_counterexample_no_module_for_malformed :
    parseModule 1000 ⟨parenTokens, []⟩
      = .error (.panic (.unimplemented "Parser.parse_expression")) := rfl

/-! ### The recoverable map and the parser success specification -/

theorem mem_keys_bumpGlyph {a g : Glyph} {m : List (Glyph × Nat)} :
    a ∈ (bumpGlyph g m).map Prod.fst ↔ a ∈ m.map Prod.fst ∨ a = g := by
  induction m with
  | nil => simp [bumpGlyph]
  | cons p rest ih =>
    obtain ⟨h0, n⟩ := p
    by_cases hg : h0 = g
    · subst hg
      simp [bumpGlyph]
      tauto
    · simp [bumpGlyph, hg, ih]
      tauto

theorem WFRec_bumpGlyph {g : Glyph} {m : List (Glyph × Nat)} (h : WFRec m) :
    WFRec (bumpGlyph g m) := by
  induction m with
  | nil =>
    refine ⟨by simp [bumpGlyph], ?_⟩
    intro q hq
    simp [bumpGlyph] at hq
    subst hq
    exact Nat.le_refl 1
  | cons p rest ih =>
    obtain ⟨h0, n⟩ := p
    obtain ⟨hnd, hcount⟩ := h
    rw [List.map_cons, List.nodup_cons] at hnd
    have hrest : WFRec rest := ⟨hnd.2, fun q hq => hcount q (List.mem_cons_of_mem _ hq)⟩
    by_cases hg : h0 = g
    · subst hg
      have hb : bumpGlyph h0 ((h0, n) :: rest) = (h0, n + 1) :: rest := by
        simp [bumpGlyph]
      rw [hb]
      refine ⟨?_, ?_⟩
      · rw [List.map_cons, List.nodup_cons]
        exact ⟨hnd.1, hnd.2⟩
      · intro q hq
        rcases List.mem_cons.mp hq with hq | hq
        · subst hq; exact Nat.le_add_left 1 n
        · exact hcount q (List.mem_cons_of_mem _ hq)
    · have hb : bumpGlyph g ((h0, n) :: rest) = (h0, n) :: bumpGlyph g rest := by
        simp [bumpGlyph, hg]
      rw [hb]
      obtain ⟨ih1, ih2⟩ := ih hrest
      refine ⟨?_, ?_⟩
      · rw [List.map_cons, List.nodup_cons]
        refine ⟨?_, ih1⟩
        rw [mem_keys_bumpGlyph]
        rintro (hmem | hmem)
        · exact hnd.1 hmem
        · exact hg hmem
      · intro q hq
        rcases List.mem_cons.mp hq with hq | hq
        · subst hq; exact hcount (h0, n) (List.mem_cons_self _ _)
        · exact ih2 q hq

theorem dropGlyph_bumpGlyph {g : Glyph} {m : List (Glyph × Nat)} (h : WFRec m) :
    dropGlyph g (bumpGlyph g m) = m := by
  induction m with
  | nil => simp [bumpGlyph, dropGlyph]
  | cons p rest ih =>
    obtain ⟨h0, n⟩ := p
    obtain ⟨hnd, hcount⟩ := h
    rw [List.map_cons, List.nodup_cons] at hnd
    have hrest : WFRec rest := ⟨hnd.2, fun q hq => hcount q (List.mem_cons_of_mem _ hq)⟩
    by_cases hg : h0 = g
    · subst hg
      have hn : 1 ≤ n := hcount (h0, n) (List.mem_cons_self _ _)
      have hb : bumpGlyph h0 ((h0, n) :: rest) = (h0, n + 1) :: rest := by
        simp [bumpGlyph]
      rw [hb]
      simp [dropGlyph]
      omega
    · have hb : bumpGlyph g ((h0, n) :: rest) = (h0, n) :: bumpGlyph g rest := by
        simp [bumpGlyph, hg]
      rw [hb]
      simp [dropGlyph, hg, ih hrest]

/-! Inversion lemmas for the non-recursive parser helpers -/

theorem advanceT_ok {s : PState} {t : Token} {s' : PState}
    (h : s.advanceT = .ok (t, s')) :
    s.tokens = t :: s'.tokens ∧ s'.recoverable = s.recoverable := by
  obtain ⟨ts, r⟩ := s
  cases ts with
  | nil => simp [PState.advanceT] at h
  | cons t0 rest =>
    simp [PState.advanceT] at h
    obtain ⟨rfl, rfl⟩ := h
    exact ⟨rfl, rfl⟩

theorem tryParseGlyph_some {g : Glyph} {s : PState} {t : GlyphToken} {s' : PState}
    (h : tryParseGlyph g s = (some t, s')) :
    s.tokens = Token.glyph t :: s'.tokens ∧ s'.recoverable = s.recoverable ∧ t.glyph = g := by
  obtain ⟨ts, r⟩ := s
  cases ts with
  | nil => simp [tryParseGlyph] at h
  | cons t0 rest =>
    cases t0 with
    | glyph gt =>
      by_cases hg : gt.glyph = g
      · simp [tryParseGlyph, hg] at h
        obtain ⟨rfl, rfl⟩ := h
        exact ⟨rfl, rfl, hg⟩
      · simp [tryParseGlyph, hg] at h
    | identifier it => simp [tryParseGlyph] at h
    | number nt => simp [tryParseGlyph] at h
    | end_ et => simp [tryParseGlyph] at h

theorem tryParseGlyph_none {g : Glyph} {s s' : PState}
    (h : tryParseGlyph g s = (Option.none, s')) : s' = s := by
  obtain ⟨ts, r⟩ := s
  cases ts with
  | nil => simp [tryParseGlyph] at h; exact h.symm
  | cons t0 rest =>
    cases t0 with
    | glyph gt =>
      by_cases hg : gt.glyph = g
      · simp [tryParseGlyph, hg] at h
      · simp [tryParseGlyph, hg] at h; exact h.symm
    | identifier it => simp [tryParseGlyph] at h; exact h.symm
    | number nt => simp [tryParseGlyph] at h; exact h.symm
    | end_ et => simp [tryParseGlyph] at h; exact h.symm

theorem tryParseGlyphOnSameLine_some {g : Glyph} {s : PState} {t : GlyphToken} {s' : PState}
    (h : tryParseGlyphOnSameLine g s = (some t, s')) :
    s.tokens = Token.glyph t :: s'.tokens ∧ s'.recoverable = s.recoverable ∧ t.glyph = g := by
  obtain ⟨ts, r⟩ := s
  cases ts with
  | nil => simp [tryParseGlyphOnSameLine] at h
  | cons t0 rest =>
    cases t0 with
    | glyph gt =>
      by_cases hg : !gt.onNewLine ∧ gt.glyph = g
      · simp only [tryParseGlyphOnSameLine, if_pos hg] at h
        simp at h
        obtain ⟨rfl, rfl⟩ := h
        exact ⟨rfl, rfl, hg.2⟩
      · simp only [tryParseGlyphOnSameLine, if_neg hg] at h
        simp at h
    | identifier it => simp [tryParseGlyphOnSameLine] at h
    | number nt => simp [tryParseGlyphOnSameLine] at h
    | end_ et => simp [tryParseGlyphOnSameLine] at h

theorem tryParseGlyphOnSameLine_none {g : Glyph} {s s' : PState}
    (h : tryParseGlyphOnSameLine g s = (Option.none, s')) : s' = s := by
  obtain ⟨ts, r⟩ := s
  cases ts with
  | nil => simp [tryParseGlyphOnSameLine] at h; exact h.symm
  | cons t0 rest =>
    cases t0 with
    | glyph gt =>
      by_cases hg : !gt.onNewLine ∧ gt.glyph = g
      · simp only [tryParseGlyphOnSameLine, if_pos hg] at h
        simp at h
      · simp only [tryParseGlyphOnSameLine, if_neg hg] at h
        simp at h; exact h.symm
    | identifier it => simp [tryParseGlyphOnSameLine] at h; exact h.symm
    | number nt => simp [tryParseGlyphOnSameLine] at h; exact h.symm
    | end_ et => simp [tryParseGlyphOnSameLine] at h; exact h.symm

theorem parseGlyph_ok {g : Glyph} {s : PState} {t : GlyphToken} {s' : PState}
    (h : parseGlyph g s = .ok (t, s')) :
    s.tokens = Token.glyph t :: s'.tokens ∧ s'.recoverable = s.recoverable ∧ t.glyph = g := by
  obtain ⟨ts, r⟩ := s
  cases ts with
  | nil => simp [parseGlyph, PState.advanceT] at h
  | cons t0 rest =>
    cases t0 with
    | glyph gt =>
      by_cases hg : gt.glyph = g
      · simp [parseGlyph, PState.advanceT, hg] at h
        obtain ⟨rfl, rfl⟩ := h
        exact ⟨rfl, rfl, hg⟩
      · simp [parseGlyph, PState.advanceT, hg] at h
    | identifier it => simp [parseGlyph, PState.advanceT] at h
    | number nt => simp [parseGlyph, PState.advanceT] at h
    | end_ et => simp [parseGlyph, PState.advanceT] at h

theorem parseIdentifier_ok {s : PState} {t : IdentifierToken} {s' : PState}
    (h : parseIdentifier s = .ok (t, s')) :
    s.tokens = Token.identifier t :: s'.tokens ∧ s'.recoverable = s.recoverable := by
  obtain ⟨ts, r⟩ := s
  cases ts with
  | nil => simp [parseIdentifier, PState.advanceT] at h
  | cons t0 rest =>
    cases t0 with
    | glyph gt => simp [parseIdentifier, PState.advanceT] at h
    | identifier it =>
      simp [parseIdentifier, PState.advanceT] at h
      obtain ⟨rfl, rfl⟩ := h
      exact ⟨rfl, rfl⟩
    | number nt => simp [parseIdentifier, PState.advanceT] at h
    | end_ et => simp [parseIdentifier, PState.advanceT] at h

theorem parsePattern_ok {s : PState} {p : Pattern} {s' : PState}
    (h : parsePattern s = .ok (p, s')) :
    p.intoTokens ++ s'.tokens = s.tokens ∧ s'.recoverable = s.recoverable := by
  obtain ⟨ts, r⟩ := s
  cases ts with
  | nil => simp [parsePattern, PState.advanceT] at h
  | cons t0 rest =>
    cases t0 with
    | glyph gt =>
      by_cases hg : gt.glyph = Glyph.underscore
      · simp [parsePattern, PState.advanceT, hg] at h
        obtain ⟨rfl, rfl⟩ := h
        exact ⟨rfl, rfl⟩
      · simp [parsePattern, PState.advanceT, hg] at h
    | identifier it =>
      simp [parsePattern, PState.advanceT] at h
      obtain ⟨rfl, rfl⟩ := h
      exact ⟨rfl, rfl⟩
    | number nt => simp [parsePattern, PState.advanceT] at h
    | end_ et => simp [parsePattern, PState.advanceT] at h

theorem recoverAt_ok {α : Type} {g : Glyph} {f : PState → PRes α} {s : PState} {a : α}
    {s' : PState} (h : recoverAt g f s = .ok (a, s')) :
    ∃ s1, f ⟨s.tokens, bumpGlyph g s.recoverable⟩ = .ok (a, s1)
      ∧ s' = ⟨s1.tokens, dropGlyph g s1.recoverable⟩ := by
  unfold recoverAt at h
  cases hf : f ⟨s.tokens, bumpGlyph g s.recoverable⟩ with
  | error e => rw [hf] at h; exact Except.noConfusion h
  | ok q =>
    obtain ⟨a1, s1⟩ := q
    rw [hf] at h
    have h2 := Except.ok.inj h
    have ha : a1 = a := congrArg Prod.fst h2
    have hs : (⟨s1.tokens, dropGlyph g s1.recoverable⟩ : PState) = s' := congrArg Prod.snd h2
    subst ha
    exact ⟨s1, rfl, hs.symm⟩

set_option maxHeartbeats 1600000

/-- Success specification of every embedded parser function, proved by one
induction on the recursion budget: on success, re-serializing the produced
node and appending the remaining tokens gives back exactly the input tokens,
and the recoverable map is returned unchanged. -/
theorem parser_spec : ∀ fuel : Nat,
    (∀ s a s', WFRec s.recoverable → parseModule fuel s = .ok (a, s') →
      a.intoTokens ++ s'.tokens = s.tokens ∧ s'.recoverable = s.recoverable)
    ∧ (∀ u s a s', WFRec s.recoverable → parseItemList fuel u s = .ok (a, s') →
      itemsIntoTokens a ++ s'.tokens = s.tokens ∧ s'.recoverable = s.recoverable)
    ∧ (∀ s a s', WFRec s.recoverable → parseItem fuel s = .ok (a, s') →
      a.intoTokens ++ s'.tokens = s.tokens ∧ s'.recoverable = s.recoverable)
    ∧ (∀ s a s', WFRec s.recoverable → parseStatement fuel s = .ok (a, s') →
      a.intoTokens ++ s'.tokens = s.tokens ∧ s'.recoverable = s.recoverable)
    ∧ (∀ s a s', WFRec s.recoverable → actuallyParseStatement fuel s = .ok (a, s') →
      a.intoTokens ++ s'.tokens = s.tokens ∧ s'.recoverable = s.recoverable)
    ∧ (∀ s a s', WFRec s.recoverable → parseExpression fuel s = .ok (a, s') →
      a.intoTokens ++ s'.tokens = s.tokens ∧ s'.recoverable = s.recoverable)
    ∧ (∀ e0 s a s', WFRec s.recoverable → parseExpressionExtensions fuel e0 s = .ok (a, s') →
      a.intoTokens ++ s'.tokens = e0.intoTokens ++ s.tokens ∧ s'.recoverable = s.recoverable)
    ∧ (∀ u s a s', WFRec s.recoverable → parseCommaList fuel u s = .ok (a, s') →
      commaListIntoTokens a ++ s'.tokens = s.tokens ∧ s'.recoverable = s.recoverable)
    ∧ (∀ s a s', WFRec s.recoverable → parseBlock fuel s = .ok (a, s') →
      a.intoTokens ++ s'.tokens = s.tokens ∧ s'.recoverable = s.recoverable) := by
  intro fuel
  induction fuel with
  | zero =>
    refine ⟨?_, ?_, ?_, ?_, ?_, ?_, ?_, ?_, ?_⟩ <;> intros <;>
      simp_all [parseModule, parseItemList, parseItem, parseStatement,
        actuallyParseStatement, parseExpression, parseExpressionExtensions,
        parseCommaList, parseBlock]
  | succ n ih =>
    obtain ⟨ihM, ihIL, ihI, ihS, ihAS, ihE, ihEE, ihCL, ihB⟩ := ih
    refine ⟨?_, ?_, ?_, ?_, ?_, ?_, ?_, ?_, ?_⟩
    -- parseModule
    · intro s a s' hwf h
      simp only [parseModule] at h
      cases h1 : parseItemList n Token.isEnd s with
      | error e => simp only [h1] at h; exact Except.noConfusion h
      | ok q =>
        obtain ⟨items, s1⟩ := q
        simp only [h1] at h
        cases h2 : s1.advanceT with
        | error e => simp only [h2] at h; exact Except.noConfusion h
        | ok q2 =>
          obtain ⟨t, s2⟩ := q2
          cases t with
          | glyph t => simp only [h2] at h; exact Except.noConfusion h
          | identifier t => simp only [h2] at h; exact Except.noConfusion h
          | number t => simp only [h2] at h; exact Except.noConfusion h
          | end_ endTok =>
            simp only [h2] at h
            have h3 := Except.ok.inj h
            have ha : (⟨items, endTok⟩ : Module) = a := congrArg Prod.fst h3
            have hs : s2 = s' := congrArg Prod.snd h3
            subst ha; subst hs
            obtain ⟨hc1, hr1⟩ := ihIL Token.isEnd s items s1 hwf h1
            obtain ⟨hc2, hr2⟩ := advanceT_ok h2
            constructor
            · rw [← hc1, hc2]
              simp [Module.intoTokens]
            · rw [hr2, hr1]
    -- parseItemList
    · intro u s a s' hwf h
      simp only [parseItemList] at h
      cases h0 : s.lookaheadT with
      | error e => simp only [h0] at h; exact Except.noConfusion h
      | ok t =>
        simp only [h0] at h
        by_cases hu : u t
        · rw [if_pos hu] at h
          have h3 := Except.ok.inj h
          have ha : ([] : List Item) = a := congrArg Prod.fst h3
          have hs : s = s' := congrArg Prod.snd h3
          subst ha; subst hs
          exact ⟨by simp [itemsIntoTokens], rfl⟩
        · rw [if_neg hu] at h
          cases h1 : parseItem n s with
          | error e => simp only [h1] at h; exact Except.noConfusion h
          | ok q =>
            obtain ⟨item, s1⟩ := q
            simp only [h1] at h
            cases h2 : parseItemList n u s1 with
            | error e => simp only [h2] at h; exact Except.noConfusion h
            | ok q2 =>
              obtain ⟨items, s2⟩ := q2
              simp only [h2] at h
              have h3 := Except.ok.inj h
              have ha : item :: items = a := congrArg Prod.fst h3
              have hs : s2 = s' := congrArg Prod.snd h3
              subst ha; subst hs
              obtain ⟨hc1, hr1⟩ := ihI s item s1 hwf h1
              obtain ⟨hc2, hr2⟩ := ihIL u s1 items s2 (by rw [hr1]; exact hwf) h2
              constructor
              · rw [← hc1, ← hc2]
                simp [itemsIntoTokens, List.append_assoc]
              · rw [hr2, hr1]
    -- parseItem
    · intro s a s' hwf h
      simp only [parseItem] at h
      cases h1 : parseStatement n s with
      | error e => simp only [h1] at h; exact Except.noConfusion h
      | ok q =>
        obtain ⟨st, s1⟩ := q
        simp only [h1] at h
        have h3 := Except.ok.inj h
        have ha : Item.statement st = a := congrArg Prod.fst h3
        have hs : s1 = s' := congrArg Prod.snd h3
        subst ha; subst hs
        obtain ⟨hc1, hr1⟩ := ihS s st s1 hwf h1
        exact ⟨by rw [← hc1]; simp [Item.intoTokens], hr1⟩
    -- parseStatement
    · intro s a s' hwf h
      simp only [parseStatement] at h
      obtain ⟨s1, hf, hs'⟩ := recoverAt_ok h
      obtain ⟨hc1, hr1⟩ := ihAS ⟨s.tokens, bumpGlyph .semicolon s.recoverable⟩ a s1
        (WFRec_bumpGlyph hwf) hf
      subst hs'
      constructor
      · exact hc1
      · rw [hr1]
        exact dropGlyph_bumpGlyph hwf
    -- actuallyParseStatement
    · intro s a s' hwf h
      simp only [actuallyParseStatement] at h
      rcases hq : tryParseGlyph (.keyword .let_) s with ⟨o, s1⟩
      cases o with
      | some letTok =>
        simp only [hq] at h
        obtain ⟨hts, hrs, hgl⟩ := tryParseGlyph_some hq
        have hwf1 : WFRec s1.recoverable := by rw [hrs]; exact hwf
        cases h1 : recoverAt .equals parsePattern s1 with
        | error e => simp only [h1] at h; exact Except.noConfusion h
        | ok q1 =>
          obtain ⟨pat, s2⟩ := q1
          simp only [h1] at h
          obtain ⟨s2i, hf2, hs2⟩ := recoverAt_ok h1
          obtain ⟨hc2, hr2⟩ := parsePattern_ok hf2
          have hr2' : s2.recoverable = s1.recoverable := by
            rw [hs2]
            show dropGlyph Glyph.equals s2i.recoverable = s1.recoverable
            rw [hr2]
            exact dropGlyph_bumpGlyph hwf1
          have hc2' : pat.intoTokens ++ s2.tokens = s1.tokens := by
            rw [hs2]
            show pat.intoTokens ++ s2i.tokens = s1.tokens
            rw [hc2]
          cases h2 : parseGlyph .equals s2 with
          | error e => simp only [h2] at h; exact Except.noConfusion h
          | ok q2 =>
            obtain ⟨eqTok, s3⟩ := q2
            simp only [h2] at h
            obtain ⟨hc3, hr3, hge⟩ := parseGlyph_ok h2
            have hwf3 : WFRec s3.recoverable := by rw [hr3, hr2']; exact hwf1
            cases h3 : parseExpression n s3 with
            | error e => simp only [h3] at h; exact Except.noConfusion h
            | ok q3 =>
              obtain ⟨value, s4⟩ := q3
              simp only [h3] at h
              obtain ⟨hc4, hr4⟩ := ihE s3 value s4 hwf3 h3
              rcases hq4 : tryParseGlyph .semicolon s4 with ⟨o4, s5⟩
              simp only [hq4] at h
              have h5 := Except.ok.inj h
              have ha : Statement.binding (.mk letTok pat eqTok value o4) = a :=
                congrArg Prod.fst h5
              have hs : s5 = s' := congrArg Prod.snd h5
              subst ha; subst hs
              cases o4 with
              | some semiTok =>
                obtain ⟨hts5, hrs5, _⟩ := tryParseGlyph_some hq4
                constructor
                · rw [hts, ← hc2', hc3, ← hc4, hts5]
                  simp [Statement.intoTokens, BindingStatement.intoTokens, optGlyphTokens,
                    List.append_assoc]
                · rw [hrs5, hr4, hr3, hr2', hrs]
              | none =>
                have hs5 : s5 = s4 := tryParseGlyph_none hq4
                subst hs5
                constructor
                · rw [hts, ← hc2', hc3, ← hc4]
                  simp [Statement.intoTokens, BindingStatement.intoTokens, optGlyphTokens,
                    List.append_assoc]
                · rw [hr4, hr3, hr2', hrs]
      | none =>
        simp only [hq] at h
        have hs1 : s1 = s := tryParseGlyph_none hq
        subst hs1
        cases h1 : parseExpression n s1 with
        | error e => simp only [h1] at h; exact Except.noConfusion h
        | ok q1 =>
          obtain ⟨expression, s2⟩ := q1
          simp only [h1] at h
          rcases hq2 : tryParseGlyph .semicolon s2 with ⟨o2, s3⟩
          simp only [hq2] at h
          have h5 := Except.ok.inj h
          have ha : Statement.expression (.mk expression o2) = a := congrArg Prod.fst h5
          have hs : s3 = s' := congrArg Prod.snd h5
          subst ha; subst hs
          obtain ⟨hc1, hr1⟩ := ihE s1 expression s2 hwf h1
          cases o2 with
          | some semiTok =>
            obtain ⟨hts2, hrs2, _⟩ := tryParseGlyph_some hq2
            constructor
            · rw [← hc1, hts2]
              simp [Statement.intoTokens, ExpressionStatement.intoTokens, optGlyphTokens,
                List.append_assoc]
            · rw [hrs2, hr1]
          | none =>
            have hs2 : s3 = s2 := tryParseGlyph_none hq2
            subst hs2
            constructor
            · rw [← hc1]
              simp [Statement.intoTokens, ExpressionStatement.intoTokens, optGlyphTokens]
            · rw [hr1]
    -- parseExpression
    · intro s a s' hwf h
      simp only [parseExpression] at h
      cases h0 : s.advanceT with
      | error e => simp only [h0] at h; exact Except.noConfusion h
      | ok q0 =>
        obtain ⟨t, s1⟩ := q0
        obtain ⟨hts, hrs⟩ := advanceT_ok h0
        have hwf1 : WFRec s1.recoverable := by rw [hrs]; exact hwf
        cases t with
        | identifier it =>
          simp only [h0] at h
          obtain ⟨hc1, hr1⟩ := ihEE (.variable it) s1 a s' hwf1 h
          constructor
          · rw [hc1, hts]
            simp [Expression.intoTokens]
          · rw [hr1, hrs]
        | number nt =>
          simp only [h0] at h
          obtain ⟨hc1, hr1⟩ := ihEE (.constant (.number nt)) s1 a s' hwf1 h
          constructor
          · rw [hc1, hts]
            simp [Expression.intoTokens, Constant.intoTokens]
          · rw [hr1, hrs]
        | end_ et => simp only [h0] at h; exact Except.noConfusion h
        | glyph gt =>
          obtain ⟨gr, gn, gg⟩ := gt
          cases gg with
          | keyword k =>
            cases k with
            | let_ => simp only [h0] at h; exact Except.noConfusion h
            | else_ => simp only [h0] at h; exact Except.noConfusion h
            | true_ =>
              simp only [h0] at h
              obtain ⟨hc1, hr1⟩ := ihEE (.constant (.boolean ⟨gr, gn, .keyword .true_⟩ true))
                s1 a s' hwf1 h
              constructor
              · rw [hc1, hts]
                simp [Expression.intoTokens, Constant.intoTokens]
              · rw [hr1, hrs]
            | false_ =>
              simp only [h0] at h
              obtain ⟨hc1, hr1⟩ := ihEE (.constant (.boolean ⟨gr, gn, .keyword .false_⟩ false))
                s1 a s' hwf1 h
              constructor
              · rw [hc1, hts]
                simp [Expression.intoTokens, Constant.intoTokens]
              · rw [hr1, hrs]
            | do_ =>
              simp only [h0] at h
              cases h1 : parseBlock n s1 with
              | error e => simp only [h1] at h; exact Except.noConfusion h
              | ok q1 =>
                obtain ⟨b, s2⟩ := q1
                simp only [h1] at h
                obtain ⟨hc1, hr1⟩ := ihB s1 b s2 hwf1 h1
                obtain ⟨hc2, hr2⟩ := ihEE (.block ⟨gr, gn, .keyword .do_⟩ b) s2 a s'
                  (by rw [hr1]; exact hwf1) h
                constructor
                · rw [hc2, hts, ← hc1]
                  simp [Expression.intoTokens]
                · rw [hr2, hr1, hrs]
            | if_ =>
              simp only [h0] at h
              cases h1 : parseExpression n s1 with
              | error e => simp only [h1] at h; exact Except.noConfusion h
              | ok q1 =>
                obtain ⟨test, s2⟩ := q1
                simp only [h1] at h
                obtain ⟨hc1, hr1⟩ := ihE s1 test s2 hwf1 h1
                cases h2 : parseBlock n s2 with
                | error e => simp only [h2] at h; exact Except.noConfusion h
                | ok q2 =>
                  obtain ⟨consequent, s3⟩ := q2
                  simp only [h2] at h
                  obtain ⟨hc2, hr2⟩ := ihB s2 consequent s3 (by rw [hr1]; exact hwf1) h2
                  rcases hq3 : tryParseGlyph (.keyword .else_) s3 with ⟨o3, s4⟩
                  cases o3 with
                  | some elseTok =>
                    simp only [hq3] at h
                    obtain ⟨hts4, hrs4, _⟩ := tryParseGlyph_some hq3
                    cases h4 : parseBlock n s4 with
                    | error e => simp only [h4] at h; exact Except.noConfusion h
                    | ok q4 =>
                      obtain ⟨alternate, s5⟩ := q4
                      simp only [h4] at h
                      obtain ⟨hc4, hr4⟩ := ihB s4 alternate s5
                        (by rw [hrs4, hr2, hr1]; exact hwf1) h4
                      obtain ⟨hc5, hr5⟩ := ihEE
                        (.conditional (.mk ⟨gr, gn, .keyword .if_⟩ test consequent
                          (some (.mk elseTok alternate)))) s5 a s'
                        (by rw [hr4, hrs4, hr2, hr1]; exact hwf1) h
                      constructor
                      · rw [hc5, hts, ← hc1, ← hc2, hts4, ← hc4]
                        simp [Expression.intoTokens, ConditionalExpression.intoTokens,
                          ConditionalAlternate.intoTokens, List.append_assoc]
                      · rw [hr5, hr4, hrs4, hr2, hr1, hrs]
                  | none =>
                    simp only [hq3] at h
                    have hs4 : s4 = s3 := tryParseGlyph_none hq3
                    subst hs4
                    obtain ⟨hc5, hr5⟩ := ihEE
                      (.conditional (.mk ⟨gr, gn, .keyword .if_⟩ test consequent Option.none))
                      s4 a s' (by rw [hr2, hr1]; exact hwf1) h
                    constructor
                    · rw [hc5, hts, ← hc1, ← hc2]
                      simp [Expression.intoTokens, ConditionalExpression.intoTokens,
                        List.append_assoc]
                    · rw [hr5, hr2, hr1, hrs]
          | braceLeft => simp only [h0] at h; exact Except.noConfusion h
          | braceRight => simp only [h0] at h; exact Except.noConfusion h
          | comma => simp only [h0] at h; exact Except.noConfusion h
          | dot => simp only [h0] at h; exact Except.noConfusion h
          | equals => simp only [h0] at h; exact Except.noConfusion h
          | parenRight => simp only [h0] at h; exact Except.noConfusion h
          | semicolon => simp only [h0] at h; exact Except.noConfusion h
          | underscore => simp only [h0] at h; exact Except.noConfusion h
          | parenLeft =>
            simp only [h0] at h
            cases h1 : parseExpression n s1 with
            | error e => simp only [h1] at h; exact Except.noConfusion h
            | ok q1 =>
              obtain ⟨inner, s2⟩ := q1
              simp only [h1] at h
              obtain ⟨hc1, hr1⟩ := ihE s1 inner s2 hwf1 h1
              cases h2 : parseGlyph .parenRight s2 with
              | error e => simp only [h2] at h; exact Except.noConfusion h
              | ok q2 =>
                obtain ⟨prTok, s3⟩ := q2
                simp only [h2] at h
                obtain ⟨hc2, hr2, _⟩ := parseGlyph_ok h2
                obtain ⟨hc3, hr3⟩ := ihEE (.wrapped ⟨gr, gn, .parenLeft⟩ inner prTok) s3 a s'
                  (by rw [hr2, hr1]; exact hwf1) h
                constructor
                · rw [hc3, hts, ← hc1, hc2]
                  simp [Expression.intoTokens, List.append_assoc]
                · rw [hr3, hr2, hr1, hrs]
    -- parseExpressionExtensions
    · intro e0 s a s' hwf h
      simp only [parseExpressionExtensions] at h
      rcases hq : tryParseGlyph .dot s with ⟨o, s1⟩
      cases o with
      | some dotTok =>
        simp only [hq] at h
        obtain ⟨hts, hrs, _⟩ := tryParseGlyph_some hq
        cases h1 : parseIdentifier s1 with
        | error e => simp only [h1] at h; exact Except.noConfusion h
        | ok q1 =>
          obtain ⟨prop, s2⟩ := q1
          simp only [h1] at h
          obtain ⟨hc1, hr1⟩ := parseIdentifier_ok h1
          obtain ⟨hc2, hr2⟩ := ihEE (.property e0 dotTok prop) s2 a s'
            (by rw [hr1, hrs]; exact hwf) h
          constructor
          · rw [hc2, hts, hc1]
            simp [Expression.intoTokens, List.append_assoc]
          · rw [hr2, hr1, hrs]
      | none =>
        simp only [hq] at h
        have hs1 : s1 = s := tryParseGlyph_none hq
        subst hs1
        rcases hq2 : tryParseGlyphOnSameLine .parenLeft s1 with ⟨o2, s2⟩
        cases o2 with
        | some plTok =>
          simp only [hq2] at h
          obtain ⟨hts2, hrs2, _⟩ := tryParseGlyphOnSameLine_some hq2
          cases h2 : parseCommaList n (fun t => t.isGlyph .parenRight) s2 with
          | error e => simp only [h2] at h; exact Except.noConfusion h
          | ok q2 =>
            obtain ⟨arguments, s3⟩ := q2
            simp only [h2] at h
            obtain ⟨hc2, hr2⟩ := ihCL (fun t => t.isGlyph .parenRight) s2 arguments s3
              (by rw [hrs2]; exact hwf) h2
            cases h3 : parseGlyph .parenRight s3 with
            | error e => simp only [h3] at h; exact Except.noConfusion h
            | ok q3 =>
              obtain ⟨prTok, s4⟩ := q3
              simp only [h3] at h
              obtain ⟨hc3, hr3, _⟩ := parseGlyph_ok h3
              obtain ⟨hc4, hr4⟩ := ihEE (.call e0 plTok arguments prTok) s4 a s'
                (by rw [hr3, hr2, hrs2]; exact hwf) h
              constructor
              · rw [hc4, hts2, ← hc2, hc3]
                simp [Expression.intoTokens, List.append_assoc]
              · rw [hr4, hr3, hr2, hrs2]
        | none =>
          simp only [hq2] at h
          have hs2 : s2 = s1 := tryParseGlyphOnSameLine_none hq2
          have h5 := Except.ok.inj h
          have ha : e0 = a := congrArg Prod.fst h5
          have hs : s1 = s' := congrArg Prod.snd h5
          subst ha; subst hs
          exact ⟨rfl, rfl⟩
    -- parseCommaList
    · intro u s a s' hwf h
      simp only [parseCommaList] at h
      cases h0 : s.lookaheadT with
      | error e => simp only [h0] at h; exact Except.noConfusion h
      | ok t =>
        simp only [h0] at h
        by_cases hu : u t
        · rw [if_pos hu] at h
          have h3 := Except.ok.inj h
          have ha : ([] : List CommaListItem) = a := congrArg Prod.fst h3
          have hs : s = s' := congrArg Prod.snd h3
          subst ha; subst hs
          exact ⟨by simp [commaListIntoTokens], rfl⟩
        · rw [if_neg hu] at h
          cases h1 : parseExpression n s with
          | error e => simp only [h1] at h; exact Except.noConfusion h
          | ok q1 =>
            obtain ⟨item, s1⟩ := q1
            simp only [h1] at h
            obtain ⟨hc1, hr1⟩ := ihE s item s1 hwf h1
            rcases hq2 : tryParseGlyph .comma s1 with ⟨o2, s2⟩
            cases o2 with
            | some commaTok =>
              simp only [hq2] at h
              obtain ⟨hts2, hrs2, _⟩ := tryParseGlyph_some hq2
              cases h2 : parseCommaList n u s2 with
              | error e => simp only [h2] at h; exact Except.noConfusion h
              | ok q2 =>
                obtain ⟨items, s3⟩ := q2
                simp only [h2] at h
                have h3 := Except.ok.inj h
                have ha : CommaListItem.mk item (some commaTok) :: items = a :=
                  congrArg Prod.fst h3
                have hs : s3 = s' := congrArg Prod.snd h3
                subst ha; subst hs
                obtain ⟨hc2, hr2⟩ := ihCL u s2 items s3 (by rw [hrs2, hr1]; exact hwf) h2
                constructor
                · rw [← hc1, hts2, ← hc2]
                  simp [commaListIntoTokens, optGlyphTokens, List.append_assoc]
                · rw [hr2, hrs2, hr1]
            | none =>
              simp only [hq2] at h
              have hs2 : s2 = s1 := tryParseGlyph_none hq2
              subst hs2
              cases h2 : s2.lookaheadT with
              | error e => simp only [h2] at h; exact Except.noConfusion h
              | ok t2 =>
                simp only [h2] at h
                by_cases hu2 : u t2
                · rw [if_pos hu2] at h
                  have h3 := Except.ok.inj h
                  have ha : [CommaListItem.mk item Option.none] = a := congrArg Prod.fst h3
                  have hs : s2 = s' := congrArg Prod.snd h3
                  subst ha; subst hs
                  constructor
                  · rw [← hc1]
                    simp [commaListIntoTokens, optGlyphTokens]
                  · exact hr1
                · rw [if_neg hu2] at h
                  exact Except.noConfusion h
    -- parseBlock
    · intro s a s' hwf h
      simp only [parseBlock] at h
      cases h1 : parseGlyph .braceLeft s with
      | error e => simp only [h1] at h; exact Except.noConfusion h
      | ok q1 =>
        obtain ⟨blTok, s1⟩ := q1
        simp only [h1] at h
        obtain ⟨hc1, hr1, _⟩ := parseGlyph_ok h1
        cases h2 : parseItemList n (fun t => t.isGlyph .braceRight) s1 with
        | error e => simp only [h2] at h; exact Except.noConfusion h
        | ok q2 =>
          obtain ⟨items, s2⟩ := q2
          simp only [h2] at h
          obtain ⟨hc2, hr2⟩ := ihIL (fun t => t.isGlyph .braceRight) s1 items s2
            (by rw [hr1]; exact hwf) h2
          cases h3 : parseGlyph .braceRight s2 with
          | error e => simp only [h3] at h; exact Except.noConfusion h
          | ok q3 =>
            obtain ⟨brTok, s3⟩ := q3
            simp only [h3] at h
            obtain ⟨hc3, hr3, _⟩ := parseGlyph_ok h3
            have h5 := Except.ok.inj h
            have ha : Block.mk blTok items brTok = a := congrArg Prod.fst h5
            have hs : s3 = s' := congrArg Prod.snd h5
            subst ha; subst hs
            constructor
            · rw [hc1, ← hc2, hc3]
              simp [Block.intoTokens, List.append_assoc]
            · rw [hr3, hr2, hr1]

/-- A token stream satisfying the lexer contract has no end token before its
last position: any decomposition around an inner end token has an empty
tail. -/
theorem wfStream_no_inner_end (e : EndToken) :
    ∀ (a b ts : List Token), wfStreamB ts = true → a ++ (Token.end_ e :: b) = ts → b = [] := by
  intro a
  induction a with
  | nil =>
    intro b ts hwf hts
    subst hts
    cases b with
    | nil => rfl
    | cons x b' => simp [wfStreamB, Token.isEnd] at hwf
  | cons x a' ih =>
    intro b ts hwf hts
    subst hts
    cases ha : a' ++ (Token.end_ e :: b) with
    | nil => exact absurd ha (by simp)
    | cons y L' =>
      rw [List.cons_append, ha] at hwf
      rw [show wfStreamB (x :: y :: L') = (!x.isEnd && wfStreamB (y :: L')) from rfl] at hwf
      rw [Bool.and_eq_true] at hwf
      exact ih b (a' ++ (Token.end_ e :: b)) (by rw [ha]; exact hwf.2) rfl

/-- C2 (amended): whenever the parse of a lexer-contract token stream returns
a module, walking that module re-emits exactly the input token stream. -/
theorem c2_roundtrip_on_success (fuel : Nat) (ts : List Token) (m : Module) (s' : PState)
    (hwf : wfStreamB ts = true) (h : parseModule fuel ⟨ts, []⟩ = .ok (m, s')) :
    m.intoTokens = ts := by
  obtain ⟨hc, -⟩ := (parser_spec fuel).1 ⟨ts, []⟩ m s' ⟨by simp, by simp⟩ h
  have hc2 : m.intoTokens ++ s'.tokens = ts := hc
  have hb : s'.tokens = [] := by
    apply wfStream_no_inner_end m.end_ (itemsIntoTokens m.items) s'.tokens ts hwf
    rw [← hc2]
    simp [Module.intoTokens]
  rw [← hc2, hb]
  simp

/-- Witness for C2's amended theorem: the stream of `"let x = 1;"` parses to
`demoModule`, which re-serializes to exactly that stream. -/
theorem c2_roundtrip_on_success_witness : demoModule.intoTokens = demoTokens :=
  c2_roundtrip_on_success 16 demoTokens demoModule ⟨[], []⟩ (by decide) rfl

/-- C5: `recover_at(glyph, parse_fn)` increments the count for `glyph`, runs
`parse_fn`, and decrements afterwards (removing the entry at zero) on every
returning path — so for every well-nested `parse_fn` (one that returns the
recoverable map as it received it) the map after `recover_at` returns equals
the map before the call; and after a successful top-level module parse the
recoverable map is empty. -/
theorem c5_recover_at_balanced :
    (∀ (α : Type) (g : Glyph) (f : PState → PRes α) (s : PState) (a : α) (s' : PState),
      WFRec s.recoverable →
      (∀ a1 s1, f ⟨s.tokens, bumpGlyph g s.recoverable⟩ = .ok (a1, s1) →
        s1.recoverable = bumpGlyph g s.recoverable) →
      recoverAt g f s = .ok (a, s') → s'.recoverable = s.recoverable)
    ∧ (∀ (fuel : Nat) (ts : List Token) (m : Module) (s' : PState),
      parseModule fuel ⟨ts, []⟩ = .ok (m, s') → s'.recoverable = []) := by
  constructor
  · intro α g f s a s' hwf hpres h
    obtain ⟨s1, hf, hs'⟩ := recoverAt_ok h
    subst hs'
    show dropGlyph g s1.recoverable = s.recoverable
    rw [hpres a s1 hf]
    exact dropGlyph_bumpGlyph hwf
  · intro fuel ts m s' h
    exact ((parser_spec fuel).1 ⟨ts, []⟩ m s' ⟨by simp, by simp⟩ h).2

/-- Witness for C5: a `parse_fn` that returns its state unchanged leaves the
recoverable map `[(dot, 1)]` intact through `recover_at(semicolon, ·)`, and
the module parse of `"let x = 1;"` ends with the empty map. -/
theorem c5_recover_at_balanced_witness :
    (PState.mk demoTokens [(Glyph.dot, 1)]).recoverable = [(Glyph.dot, 1)]
    ∧ (PState.mk [] []).recoverable = [] := by
  constructor
  · exact c5_recover_at_balanced.1 Nat Glyph.semicolon (fun s => .ok (0, s))
      ⟨demoTokens, [(Glyph.dot, 1)]⟩ 0 ⟨demoTokens, [(Glyph.dot, 1)]⟩
      (show WFRec [(Glyph.dot, 1)] from ⟨by decide, by decide⟩)
      (fun a1 s1 hok => by
        have h1 := Except.ok.inj hok
        injection h1 with ha hb
        rw [← hb])
      rfl
  · exact c5_recover_at_balanced.2 16 demoTokens demoModule ⟨[], []⟩ rfl

/-! ## C7 and C8: the character cursor

The observable behavior of a well-formed cursor state is captured by
`canonStream` (the characters not yet consumed) together with `position`; the
lemmas below state how each operation acts on that abstraction. -/

/-- `advance` returns the head of the unconsumed stream, drops it, adds its
UTF-8 length to the position, and preserves well-formedness. -/
theorem advance_canon (s : DocumentChars) (h : CharsWF s) :
    (s.advance).1 = (canonStream s).head?
    ∧ canonStream (s.advance).2 = (canonStream s).tail
    ∧ (s.advance).2.position = s.position + ((canonStream s).head?.elim 0 charUtf8Len)
    ∧ CharsWF (s.advance).2 := by
  obtain ⟨chars, pos, buf⟩ := s
  cases buf with
  | none =>
    cases chars <;>
      simp [DocumentChars.advance, canonStream, CharsLookahead.bufChars, CharsWF]
  | lookahead1 l1 =>
    cases l1 with
    | none =>
      have hc : chars = [] := h rfl
      subst hc
      simp [DocumentChars.advance, canonStream, CharsLookahead.bufChars, CharsWF]
    | some c =>
      simp [DocumentChars.advance, canonStream, CharsLookahead.bufChars, CharsWF]
  | lookahead2 l1 l2 =>
    cases l1 with
    | none =>
      have hl2 : l2 = Option.none := h.2 rfl
      subst hl2
      have hc : chars = [] := h.1 rfl
      subst hc
      simp [DocumentChars.advance, canonStream, CharsLookahead.bufChars, CharsWF]
    | some c =>
      cases l2 with
      | none =>
        have hc : chars = [] := h.1 rfl
        subst hc
        simp [DocumentChars.advance, canonStream, CharsLookahead.bufChars, CharsWF]
      | some c2 =>
        simp [DocumentChars.advance, canonStream, CharsLookahead.bufChars, CharsWF]

/-- `lookahead` returns the head of the unconsumed stream and leaves the
abstraction (stream and position) unchanged. -/
theorem lookahead_canon (s : DocumentChars) (h : CharsWF s) :
    (s.lookahead).1 = (canonStream s).head?
    ∧ canonStream (s.lookahead).2 = canonStream s
    ∧ (s.lookahead).2.position = s.position
    ∧ CharsWF (s.lookahead).2 := by
  obtain ⟨chars, pos, buf⟩ := s
  cases buf with
  | none =>
    cases chars <;>
      simp [DocumentChars.lookahead, canonStream, CharsLookahead.bufChars, CharsWF]
  | lookahead1 l1 =>
    cases l1 with
    | none =>
      have hc : chars = [] := h rfl
      subst hc
      simp [DocumentChars.lookahead, canonStream, CharsLookahead.bufChars, CharsWF]
    | some c =>
      exact ⟨by simp [DocumentChars.lookahead, canonStream, CharsLookahead.bufChars],
        rfl, rfl, h⟩
  | lookahead2 l1 l2 =>
    cases l1 with
    | none =>
      have hl2 : l2 = Option.none := h.2 rfl
      subst hl2
      have hc : chars = [] := h.1 rfl
      subst hc
      simp [DocumentChars.lookahead, canonStream, CharsLookahead.bufChars, CharsWF]
    | some c =>
      exact ⟨by simp [DocumentChars.lookahead, canonStream, CharsLookahead.bufChars],
        rfl, rfl, h⟩

/-- `lookahead2` returns the second element of the unconsumed stream and
leaves the abstraction unchanged. -/
theorem lookahead2_canon (s : DocumentChars) (h : CharsWF s) :
    (s.lookahead2).1 = (canonStream s)[1]?
    ∧ canonStream (s.lookahead2).2 = canonStream s
    ∧ (s.lookahead2).2.position = s.position
    ∧ CharsWF (s.lookahead2).2 := by
  obtain ⟨chars, pos, buf⟩ := s
  cases buf with
  | none =>
    rcases chars with _ | ⟨c1, _ | ⟨c2, cs⟩⟩ <;>
      simp [DocumentChars.lookahead2, canonStream, CharsLookahead.bufChars, CharsWF]
  | lookahead1 l1 =>
    cases l1 with
    | none =>
      have hc : chars = [] := h rfl
      subst hc
      simp [DocumentChars.lookahead2, canonStream, CharsLookahead.bufChars, CharsWF]
    | some c =>
      cases chars <;>
        simp [DocumentChars.lookahead2, canonStream, CharsLookahead.bufChars, CharsWF]
  | lookahead2 l1 l2 =>
    cases l1 with
    | none =>
      have hl2 : l2 = Option.none := h.2 rfl
      subst hl2
      have hc : chars = [] := h.1 rfl
      subst hc
      simp [DocumentChars.lookahead2, canonStream, CharsLookahead.bufChars, CharsWF]
    | some c =>
      cases l2 with
      | none =>
        have hc : chars = [] := h.1 rfl
        subst hc
        simp [DocumentChars.lookahead2, canonStream, CharsLookahead.bufChars, CharsWF]
      | some c2 =>
        simp [DocumentChars.lookahead2, canonStream, CharsLookahead.bufChars, CharsWF]

/-- Each single cursor operation: its output is a function of the canonical
stream, and it preserves the stream (except `advance`, which pops it), the
position bookkeeping, and well-formedness. -/
theorem cursorStep_canon (o : CursorOp) (s : DocumentChars) (h : CharsWF s) :
    cursorOut o s = (match o with
      | .adv => (canonStream s).head?
      | .la => (canonStream s).head?
      | .la2 => (canonStream s)[1]?)
    ∧ canonStream (cursorNext o s) = (match o with
      | .adv => (canonStream s).tail
      | _ => canonStream s)
    ∧ (cursorNext o s).position = (match o with
      | .adv => s.position + ((canonStream s).head?.elim 0 charUtf8Len)
      | _ => s.position)
    ∧ CharsWF (cursorNext o s) := by
  cases o with
  | adv => simpa [cursorOut, cursorNext] using advance_canon s h
  | la => simpa [cursorOut, cursorNext] using lookahead_canon s h
  | la2 => simpa [cursorOut, cursorNext] using lookahead2_canon s h

/-- Two well-formed cursor states with the same unconsumed stream and the same
position are observationally equal: every sequence of operations reports the
same characters from both and keeps their positions equal. -/
theorem canon_determines (ops : List CursorOp) :
    ∀ s t : DocumentChars, CharsWF s → CharsWF t →
      canonStream s = canonStream t → s.position = t.position →
      outsOps ops s = outsOps ops t
      ∧ canonStream (runOps ops s) = canonStream (runOps ops t)
      ∧ (runOps ops s).position = (runOps ops t).position
      ∧ CharsWF (runOps ops s) ∧ CharsWF (runOps ops t) := by
  induction ops with
  | nil => intro s t hs ht hc hp; exact ⟨rfl, hc, hp, hs, ht⟩
  | cons o os ih =>
    intro s t hs ht hc hp
    obtain ⟨ho1, ho2, ho3, ho4⟩ := cursorStep_canon o s hs
    obtain ⟨ht1, ht2, ht3, ht4⟩ := cursorStep_canon o t ht
    have hout : cursorOut o s = cursorOut o t := by rw [ho1, ht1, hc]
    have hc' : canonStream (cursorNext o s) = canonStream (cursorNext o t) := by
      rw [ho2, ht2, hc]
    have hp' : (cursorNext o s).position = (cursorNext o t).position := by
      rw [ho3, ht3, hc, hp]
    obtain ⟨k1, k2, k3, k4, k5⟩ := ih (cursorNext o s) (cursorNext o t) ho4 ht4 hc' hp'
    exact ⟨by simp [outsOps, hout, k1], k2, k3, k4, k5⟩

/-- Running only lookahead operations (no `advance`) leaves the canonical
stream, the position, and well-formedness untouched. -/
theorem runOps_no_advance (ops : List CursorOp) :
    ∀ s : DocumentChars, CharsWF s → (∀ o ∈ ops, o ≠ CursorOp.adv) →
      canonStream (runOps ops s) = canonStream s
      ∧ (runOps ops s).position = s.position
      ∧ CharsWF (runOps ops s) := by
  induction ops with
  | nil => intro s hs _; exact ⟨rfl, rfl, hs⟩
  | cons o os ih =>
    intro s hs hno
    obtain ⟨_, ho2, ho3, ho4⟩ := cursorStep_canon o s hs
    have hne : o ≠ CursorOp.adv := hno o (List.mem_cons_self o os)
    have ho2' : canonStream (cursorNext o s) = canonStream s := by
      cases o with
      | adv => exact absurd rfl hne
      | la => simpa using ho2
      | la2 => simpa using ho2
    have ho3' : (cursorNext o s).position = s.position := by
      cases o with
      | adv => exact absurd rfl hne
      | la => simpa using ho3
      | la2 => simpa using ho3
    obtain ⟨k1, k2, k3⟩ := ih (cursorNext o s) ho4 (fun o' ho' => hno o' (List.mem_cons_of_mem o ho'))
    exact ⟨by rw [runOps, k1, ho2'], by rw [runOps, k2, ho3'], by rw [runOps]; exact k3⟩

/-- Once the unconsumed stream is empty it stays empty under every operation,
and the position never moves again. -/
theorem runOps_empty_canon (ops : List CursorOp) :
    ∀ s : DocumentChars, CharsWF s → canonStream s = [] →
      canonStream (runOps ops s) = []
      ∧ (runOps ops s).position = s.position
      ∧ CharsWF (runOps ops s) := by
  induction ops with
  | nil => intro s hs he; exact ⟨he, rfl, hs⟩
  | cons o os ih =>
    intro s hs he
    obtain ⟨_, ho2, ho3, ho4⟩ := cursorStep_canon o s hs
    have he' : canonStream (cursorNext o s) = [] := by
      cases o <;> simp only at ho2 <;> rw [ho2, he] <;> rfl
    have hp' : (cursorNext o s).position = s.position := by
      cases o <;> simp only at ho3 <;> rw [ho3] <;> simp [he]
    obtain ⟨k1, k2, k3⟩ := ih (cursorNext o s) ho4 he'
    exact ⟨by rw [runOps, k1], by rw [runOps, k2, hp'], by rw [runOps]; exact k3⟩

/-- C7: for every well-formed cursor state, (a) repeated `lookahead()` and
`lookahead2()` calls — indeed any sequence of operations not containing
`advance()` — return the same values as at the start; and (b) once `advance()`
returns no character, every subsequent `advance()` and `lookahead()` call
returns no character, forever, with `position` remaining at the final
position. -/
theorem c7_lookahead_stable_and_end_fixed_point :
    (∀ (s : DocumentChars) (ops : List CursorOp), CharsWF s →
      (∀ o ∈ ops, o ≠ CursorOp.adv) →
      ((runOps ops s).lookahead).1 = (s.lookahead).1
      ∧ ((runOps ops s).lookahead2).1 = (s.lookahead2).1)
    ∧ (∀ s : DocumentChars, CharsWF s → (s.advance).1 = Option.none →
      ∀ ops : List CursorOp,
        ((runOps ops (s.advance).2).advance).1 = Option.none
        ∧ ((runOps ops (s.advance).2).lookahead).1 = Option.none
        ∧ (runOps ops (s.advance).2).position = s.position) := by
  constructor
  · intro s ops hs hno
    obtain ⟨k1, _, k3⟩ := runOps_no_advance ops s hs hno
    obtain ⟨a1, -, -, -⟩ := lookahead_canon (runOps ops s) k3
    obtain ⟨b1, -, -, -⟩ := lookahead_canon s hs
    obtain ⟨a2, -, -, -⟩ := lookahead2_canon (runOps ops s) k3
    obtain ⟨b2, -, -, -⟩ := lookahead2_canon s hs
    constructor
    · rw [a1, b1, k1]
    · rw [a2, b2, k1]
  · intro s hs hend ops
    obtain ⟨h1, h2, h3, h4⟩ := advance_canon s hs
    have hcanon : canonStream s = [] := by
      rw [hend] at h1
      cases hc : canonStream s with
      | nil => rfl
      | cons c cs => rw [hc] at h1; exact Option.noConfusion h1
    have h2' : canonStream (s.advance).2 = [] := by rw [h2, hcanon]; rfl
    have h3' : (s.advance).2.position = s.position := by rw [h3, hcanon]; rfl
    obtain ⟨k1, k2, k3⟩ := runOps_empty_canon ops (s.advance).2 h4 h2'
    obtain ⟨a1, -, -, -⟩ := advance_canon (runOps ops (s.advance).2) k3
    obtain ⟨l1, -, -, -⟩ := lookahead_canon (runOps ops (s.advance).2) k3
    refine ⟨?_, ?_, ?_⟩
    · rw [a1, k1]; rfl
    · rw [l1, k1]; rfl
    · rw [k2, h3']

/-- Witness for C7 at a concrete cursor (text `"ab"`, one prior `lookahead2`)
and the operation list `[lookahead, lookahead2]`, and for the end fixed point
at the exhausted cursor of the empty text. -/
theorem c7_lookahead_stable_witness :
    (((runOps [CursorOp.la, CursorOp.la2] ((Document.new "w.txt" "ab".data).chars)).lookahead).1
       = (((Document.new "w.txt" "ab".data).chars).lookahead).1
     ∧ ((runOps [CursorOp.la, CursorOp.la2] ((Document.new "w.txt" "ab".data).chars)).lookahead2).1
       = (((Document.new "w.txt" "ab".data).chars).lookahead2).1)
    ∧ ((runOps [CursorOp.adv] (((Document.new "w.txt" "".data).chars).advance).2).advance).1
        = Option.none := by
  constructor
  · exact c7_lookahead_stable_and_end_fixed_point.1 ((Document.new "w.txt" "ab".data).chars)
      [CursorOp.la, CursorOp.la2] trivial (by decide)
  · exact (c7_lookahead_stable_and_end_fixed_point.2 ((Document.new "w.txt" "".data).chars)
      trivial rfl [CursorOp.adv]).1

/-- C8: for every well-formed cursor state, `advance_char(c)` returns true
precisely when the lookahead character is `c`; in that case it consumes
exactly that one character (the unconsumed stream loses its head and the
position advances by the character's UTF-8 length); otherwise it returns
false and the cursor is observationally untouched: the position is unchanged
and every subsequent sequence of `advance`/`lookahead`/`lookahead2` calls
reports the same characters and positions as if `advance_char` had not been
called. -/
theorem c8_advance_char_conditional_consume (s : DocumentChars) (c : Char) (h : CharsWF s) :
    ((s.advanceChar c).1 = true ↔ (s.lookahead).1 = some c)
    ∧ ((s.lookahead).1 = some c →
        canonStream (s.advanceChar c).2 = (canonStream s).tail
        ∧ (s.advanceChar c).2.position = s.position + charUtf8Len c)
    ∧ ((s.lookahead).1 ≠ some c →
        (s.advanceChar c).1 = false
        ∧ (s.advanceChar c).2.position = s.position
        ∧ ∀ ops : List CursorOp,
            outsOps ops (s.advanceChar c).2 = outsOps ops s
            ∧ (runOps ops (s.advanceChar c).2).position = (runOps ops s).position) := by
  obtain ⟨l1, l2, l3, l4⟩ := lookahead_canon s h
  refine ⟨?_, ?_, ?_⟩
  · constructor
    · intro htrue
      by_contra hne
      have : (s.advanceChar c).1 = false := by
        simp only [DocumentChars.advanceChar]
        rw [if_neg hne]
      rw [this] at htrue
      exact Bool.noConfusion htrue
    · intro heq
      simp only [DocumentChars.advanceChar]
      rw [if_pos heq]
  · intro heq
    obtain ⟨a1, a2, a3, a4⟩ := advance_canon (s.lookahead).2 l4
    have hs2 : (s.advanceChar c).2 = ((s.lookahead).2.advance).2 := by
      simp only [DocumentChars.advanceChar]
      rw [if_pos heq]
    have hhead : (canonStream (s.lookahead).2).head? = some c := by
      rw [l2, ← l1, heq]
    constructor
    · rw [hs2, a2, l2]
    · rw [hs2, a3, l3, hhead]; rfl
  · intro hne
    have hs2 : (s.advanceChar c).2 = (s.lookahead).2 := by
      simp only [DocumentChars.advanceChar]
      rw [if_neg hne]
    have hfalse : (s.advanceChar c).1 = false := by
      simp only [DocumentChars.advanceChar]
      rw [if_neg hne]
    refine ⟨hfalse, by rw [hs2, l3], fun ops => ?_⟩
    obtain ⟨k1, -, k3, -, -⟩ := canon_determines ops (s.lookahead).2 s l4 h l2 l3
    exact ⟨by rw [hs2]; exact k1, by rw [hs2]; exact k3⟩

/-- Witness for C8 at the cursor of the text `"ab"`: `advance_char('a')`
consumes `a`, and `advance_char('b')` (not the lookahead) leaves the cursor
observationally untouched. -/
theorem c8_advance_char_witness :
    ((((Document.new "w.txt" "ab".data).chars).advanceChar 'a').1 = true
      ∧ (((Document.new "w.txt" "ab".data).chars).advanceChar 'a').2.position = 0 + charUtf8Len 'a')
    ∧ ((((Document.new "w.txt" "ab".data).chars).advanceChar 'b').1 = false
      ∧ outsOps [CursorOp.adv, CursorOp.adv, CursorOp.adv]
          ((((Document.new "w.txt" "ab".data).chars).advanceChar 'b').2)
        = outsOps [CursorOp.adv, CursorOp.adv, CursorOp.adv]
            ((Document.new "w.txt" "ab".data).chars)) := by
  have h := c8_advance_char_conditional_consume ((Document.new "w.txt" "ab".data).chars) 'a' trivial
  have h2 := c8_advance_char_conditional_consume ((Document.new "w.txt" "ab".data).chars) 'b' trivial
  refine ⟨⟨h.1.mpr rfl, (h.2.1 rfl).2⟩, ⟨(h2.2.2 (by decide)).1, ((h2.2.2 (by decide)).2.2 _).1⟩⟩

/-- One-step unfolding of the line scan on a non-empty byte list. -/
theorem linesGo_cons (b : Nat) (rest : List Nat) (j : Nat) :
    linesGo (b :: rest) j =
      if b = 10 then ⟨j + 1⟩ :: linesGo rest (j + 1)
      else if b = 13 then
        match rest with
        | b2 :: rest2 =>
          if rest2.length ≠ 0 ∧ b2 = 10 then ⟨j + 2⟩ :: linesGo rest2 (j + 2)
          else ⟨j + 1⟩ :: linesGo (b2 :: rest2) (j + 1)
        | [] => [⟨j + 1⟩]
      else linesGo rest (j + 1) := by
  rw [linesGo.eq_def]

/-- Entries produced by the line scan lie strictly beyond the scan index and
within the text, and are strictly increasing. -/
theorem linesGo_bounds_pairwise :
    ∀ (N : Nat) (bytes : List Nat), bytes.length ≤ N → ∀ j : Nat,
      (∀ q ∈ linesGo bytes j, j < q.offset ∧ q.offset ≤ j + bytes.length)
      ∧ (linesGo bytes j).Pairwise (fun a b => a.offset < b.offset) := by
  intro N
  induction N with
  | zero =>
    intro bytes hN j
    have hb : bytes = [] := List.length_eq_zero.mp (Nat.le_zero.mp hN)
    subst hb
    simp [linesGo]
  | succ n ihN =>
    intro bytes hN j
    cases bytes with
    | nil => simp [linesGo]
    | cons b rest =>
      have hrest : rest.length ≤ n := by simpa using hN
      by_cases h10 : b = 10
      · rw [linesGo_cons, if_pos h10]
        obtain ⟨ihb, ihp⟩ := ihN rest hrest (j + 1)
        refine ⟨?_, ?_⟩
        · intro q hq
          rcases List.mem_cons.mp hq with hq | hq
          · subst hq; constructor <;> simp <;> omega
          · have := ihb q hq; simp only [List.length_cons] at this ⊢; omega
        · exact List.pairwise_cons.mpr
            ⟨fun q hq => by have := (ihb q hq).1; simpa using this, ihp⟩
      · by_cases h13 : b = 13
        · rw [linesGo_cons, if_neg h10, if_pos h13]
          cases rest with
          | nil =>
            refine ⟨?_, ?_⟩
            · intro q hq
              simp at hq
              subst hq
              simp
            · simp
          | cons b2 rest2 =>
            by_cases hskip : rest2.length ≠ 0 ∧ b2 = 10
            · rw [show (match b2 :: rest2 with
                | b2 :: rest2 =>
                  if rest2.length ≠ 0 ∧ b2 = 10 then
                    (⟨j + 2⟩ : Position) :: linesGo rest2 (j + 2)
                  else ⟨j + 1⟩ :: linesGo (b2 :: rest2) (j + 1)
                | [] => [(⟨j + 1⟩ : Position)]) =
                  if rest2.length ≠ 0 ∧ b2 = 10 then
                    (⟨j + 2⟩ : Position) :: linesGo rest2 (j + 2)
                  else ⟨j + 1⟩ :: linesGo (b2 :: rest2) (j + 1) from rfl,
                if_pos hskip]
              have hr2 : rest2.length ≤ n := by simp at hN; omega
              obtain ⟨ihb, ihp⟩ := ihN rest2 hr2 (j + 2)
              refine ⟨?_, ?_⟩
              · intro q hq
                rcases List.mem_cons.mp hq with hq | hq
                · subst hq; constructor <;> simp <;> omega
                · have := ihb q hq; simp only [List.length_cons] at this ⊢; omega
              · exact List.pairwise_cons.mpr
                  ⟨fun q hq => by have := (ihb q hq).1; simpa using this, ihp⟩
            · rw [show (match b2 :: rest2 with
                | b2 :: rest2 =>
                  if rest2.length ≠ 0 ∧ b2 = 10 then
                    (⟨j + 2⟩ : Position) :: linesGo rest2 (j + 2)
                  else ⟨j + 1⟩ :: linesGo (b2 :: rest2) (j + 1)
                | [] => [(⟨j + 1⟩ : Position)]) =
                  if rest2.length ≠ 0 ∧ b2 = 10 then
                    (⟨j + 2⟩ : Position) :: linesGo rest2 (j + 2)
                  else ⟨j + 1⟩ :: linesGo (b2 :: rest2) (j + 1) from rfl,
                if_neg hskip]
              obtain ⟨ihb, ihp⟩ := ihN (b2 :: rest2) hrest (j + 1)
              refine ⟨?_, ?_⟩
              · intro q hq
                rcases List.mem_cons.mp hq with hq | hq
                · subst hq; constructor <;> simp <;> omega
                · have := ihb q hq; simp only [List.length_cons] at this ⊢; omega
              · exact List.pairwise_cons.mpr
                  ⟨fun q hq => by have := (ihb q hq).1; simpa using this, ihp⟩
        · rw [linesGo_cons, if_neg h10, if_neg h13]
          obtain ⟨ihb, ihp⟩ := ihN rest hrest (j + 1)
          refine ⟨?_, ?_⟩
          · intro q hq
            have := ihb q hq
            simp only [List.length_cons] at this ⊢
            omega
          · exact ihp

/-- The line index of a document is strictly increasing, and its entries lie
within the text. -/
theorem documentLines_sorted (bytes : List Nat) :
    (∀ q ∈ documentLines bytes, 0 < q.offset ∧ q.offset ≤ bytes.length)
    ∧ (documentLines bytes).Pairwise (fun a b => a.offset < b.offset) := by
  have h := linesGo_bounds_pairwise bytes.length bytes (Nat.le_refl _) 0
  simpa [documentLines] using h



/-- On a strictly sorted list, the source's `binary_search`-based line lookup
equals the number of line starts at or before the position. -/
theorem sorted_line_count : ∀ (l : List Position) (p : Position),
    l.Pairwise (fun a b => a.offset < b.offset) →
    (if p ∈ l then l.findIdx (fun q => q = p) + 1
     else l.countP (fun q => q.offset < p.offset))
      = l.countP (fun q => q.offset ≤ p.offset) := by
  intro l
  induction l with
  | nil => intro p _; simp
  | cons q0 rest ih =>
    intro p hs
    obtain ⟨hq0, hrest⟩ := List.pairwise_cons.mp hs
    by_cases he : q0 = p
    · subst he
      have h0 : rest.countP (fun q => q.offset ≤ q0.offset) = 0 := by
        rw [List.countP_eq_zero]
        intro q hq
        have := hq0 q hq
        simp only [decide_eq_true_eq]
        omega
      rw [if_pos (List.mem_cons_self _ _)]
      simp [List.findIdx_cons, List.countP_cons, h0]
    · have hne : q0.offset ≠ p.offset := by
        intro hh
        exact he (by cases q0; cases p; simpa using hh)
      by_cases hlt : q0.offset < p.offset
      · have hmm : (p ∈ q0 :: rest) ↔ (p ∈ rest) := by
          constructor
          · intro hm
            rcases List.mem_cons.mp hm with hm | hm
            · exact absurd hm.symm he
            · exact hm
          · exact fun hm => List.mem_cons_of_mem _ hm
        have ihr := ih p hrest
        by_cases hm : p ∈ rest
        · rw [if_pos (hmm.mpr hm)]
          rw [if_pos hm] at ihr
          rw [List.findIdx_cons]
          rw [decide_eq_false he]
          simp only [cond_false]
          rw [List.countP_cons]
          simp only [decide_eq_true_eq]
          rw [if_pos (Nat.le_of_lt hlt)]
          omega
        · rw [if_neg ((not_congr hmm).mpr hm)]
          rw [if_neg hm] at ihr
          rw [List.countP_cons, List.countP_cons]
          simp only [decide_eq_true_eq]
          rw [if_pos hlt, if_pos (Nat.le_of_lt hlt)]
          omega
      · have hgt : p.offset < q0.offset := by omega
        have hnm : p ∉ q0 :: rest := by
          intro hm
          rcases List.mem_cons.mp hm with hm | hm
          · exact he hm.symm
          · have := hq0 p hm
            omega
        rw [if_neg hnm]
        rw [List.countP_cons, List.countP_cons]
        simp only [decide_eq_true_eq]
        rw [if_neg (by omega), if_neg (by omega)]
        have hz : ∀ q ∈ rest, ¬(q.offset ≤ p.offset) := by
          intro q hq
          have := hq0 q hq
          omega
        have h1 : rest.countP (fun q => q.offset ≤ p.offset) = 0 := by
          rw [List.countP_eq_zero]
          intro q hq
          simpa using hz q hq
        have h2 : rest.countP (fun q => q.offset < p.offset) = 0 := by
          rw [List.countP_eq_zero]
          intro q hq
          have := hq0 q hq
          simp only [decide_eq_true_eq]
          omega
        rw [h1, h2]

/-- `Position::line` as a count, on a document with a sorted line index. -/
theorem line_eq_countP (doc : Document) (p : Position)
    (hs : doc.lines.Pairwise (fun a b => a.offset < b.offset)) :
    p.line doc = doc.lines.countP (fun q => q.offset ≤ p.offset) := by
  have h := sorted_line_count doc.lines p hs
  by_cases hm : p ∈ doc.lines
  · simp only [Position.line, binarySearch, if_pos hm]
    rw [← h, if_pos hm]
  · simp only [Position.line, binarySearch, if_neg hm]
    rw [← h, if_neg hm]

/-- `getD` at an index within bounds picks an element of the list. -/
theorem getD_mem_of_lt : ∀ (l : List Position) (k : Nat), k < l.length →
    ∀ d : Position, l.getD k d ∈ l := by
  intro l
  induction l with
  | nil => intro k hk; simp at hk
  | cons q0 rest ih =>
    intro k hk d
    cases k with
    | zero => simp [List.getD_cons_zero]
    | succ k' =>
      rw [List.getD_cons_succ]
      exact List.mem_cons_of_mem _ (ih k' (by simpa using hk) d)

/-- On a strictly sorted list, the entry just before the insertion point of a
position is at or before the position. -/
theorem sorted_getD_le : ∀ (l : List Position) (p : Position),
    l.Pairwise (fun a b => a.offset < b.offset) →
    1 ≤ l.countP (fun q => q.offset ≤ p.offset) →
    (l.getD (l.countP (fun q => q.offset ≤ p.offset) - 1) ⟨0⟩).offset ≤ p.offset := by
  intro l
  induction l with
  | nil => intro p _ hk; simp at hk
  | cons q0 rest ih =>
    intro p hs hk
    obtain ⟨hq0, hrest⟩ := List.pairwise_cons.mp hs
    by_cases hle : q0.offset ≤ p.offset
    · rw [List.countP_cons]
      simp only [decide_eq_true_eq]
      rw [if_pos hle]
      by_cases hcr : rest.countP (fun q => q.offset ≤ p.offset) = 0
      · rw [hcr]
        simpa [List.getD_cons_zero] using hle
      · have h1 : 1 ≤ rest.countP (fun q => q.offset ≤ p.offset) := by omega
        have := ih p hrest h1
        rw [show rest.countP (fun q => decide (q.offset ≤ p.offset)) + 1 - 1
            = (rest.countP (fun q => decide (q.offset ≤ p.offset)) - 1) + 1 by omega]
        rw [List.getD_cons_succ]
        exact this
    · have hz : (q0 :: rest).countP (fun q => q.offset ≤ p.offset) = 0 := by
        rw [List.countP_eq_zero]
        intro q hq
        rcases List.mem_cons.mp hq with hq | hq
        · subst hq; simpa using hle
        · have := hq0 q hq
          simp only [decide_eq_true_eq]
          omega
      rw [hz] at hk
      exact absurd hk (by omega)



/-- Unfolding of `lineStartOf`. -/
theorem lineStartOf_def (doc : Document) (p : Position) :
    lineStartOf doc p = if p.line doc = 0 then 0
      else (doc.lines.getD (p.line doc - 1) ⟨0⟩).offset := rfl

/-- Unfolding of `Position.character` in terms of `lineStartOf`. -/
theorem character_def (doc : Document) (p : Position) :
    p.character doc =
      (if lineStartOf doc p ≥ (utf8Bytes doc.text).length then
        p.offset - (utf8Bytes doc.text).length
      else if p.offset > (utf8Bytes doc.text).length then
        (p.offset - (utf8Bytes doc.text).length)
          + utf16Length ((utf8Bytes doc.text).drop (lineStartOf doc p))
      else
        utf16Length (((utf8Bytes doc.text).drop (lineStartOf doc p)).take
          (p.offset - lineStartOf doc p))) := rfl

/-- The text of a freshly built document. -/
theorem Document_new_text (path : String) (text : List Char) :
    (Document.new path text).text = text := rfl

/-- The line start of any position is at or before the position, and within
the text. -/
theorem lineStartOf_facts (path : String) (text : List Char) (p : Position) :
    lineStartOf (Document.new path text) p ≤ p.offset
    ∧ lineStartOf (Document.new path text) p ≤ (utf8Bytes text).length := by
  obtain ⟨hbnd, hsort⟩ := documentLines_sorted (utf8Bytes text)
  have hline := line_eq_countP (Document.new path text) p hsort
  rw [lineStartOf_def]
  by_cases h0 : p.line (Document.new path text) = 0
  · rw [if_pos h0]
    exact ⟨Nat.zero_le _, Nat.zero_le _⟩
  · rw [if_neg h0]
    have hk : 1 ≤ (Document.new path text).lines.countP (fun q => q.offset ≤ p.offset) := by
      rw [← hline]
      omega
    have hcle : (Document.new path text).lines.countP (fun q => q.offset ≤ p.offset)
        ≤ (Document.new path text).lines.length := List.countP_le_length _
    constructor
    · have := sorted_getD_le (Document.new path text).lines p hsort hk
      rw [hline]
      exact this
    · have hidx : (Document.new path text).lines.countP (fun q => q.offset ≤ p.offset) - 1
        < (Document.new path text).lines.length := by omega
      have hmem := getD_mem_of_lt (Document.new path text).lines _ hidx ⟨0⟩
      rw [hline]
      exact (hbnd _ hmem).2

/-- A position past the end of the text is on the same line as the end of the
text. -/
theorem line_past_end (path : String) (text : List Char) (p : Position)
    (hp : (utf8Bytes text).length ≤ p.offset) :
    p.line (Document.new path text)
      = (Position.mk (utf8Bytes text).length).line (Document.new path text) := by
  obtain ⟨hbnd, hsort⟩ := documentLines_sorted (utf8Bytes text)
  rw [line_eq_countP _ _ hsort, line_eq_countP _ _ hsort]
  have h1 : ∀ q ∈ (Document.new path text).lines, q.offset ≤ p.offset :=
    fun q hq => le_trans (hbnd q hq).2 hp
  have h2 : ∀ q ∈ (Document.new path text).lines, q.offset ≤ (utf8Bytes text).length :=
    fun q hq => (hbnd q hq).2
  rw [List.countP_eq_length.mpr (fun q hq => by simpa using h1 q hq),
    List.countP_eq_length.mpr (fun q hq => by simpa using h2 q hq)]

/-- C4: (i) for every document and in-range position, `Position::character`
computes the number of UTF-16 code units spanned by the bytes between the
position's line start and the position (surrogate pairs counting as two);
(ii) on the document `"A ß 丁 🜁"` (without spaces) the values at byte offsets
0..14 are [0,1,2,2,3,3,3,4,4,4,5,6,7,8,9]; and (iii) a position past the end
of the text is treated as on the last line with the excess bytes counted as
additional character units — and the computation is total (never panics). -/
theorem c4_character_utf16 :
    (∀ (path : String) (text : List Char) (p : Position),
      p.offset ≤ (utf8Bytes text).length →
      Position.character p (Document.new path text) = specCharacter (Document.new path text) p)
    ∧ (List.range 15).map (fun i => Position.character ⟨i⟩ exampleDocument)
        = [0, 1, 2, 2, 3, 3, 3, 4, 4, 4, 5, 6, 7, 8, 9]
    ∧ (∀ (path : String) (text : List Char) (p : Position),
      (utf8Bytes text).length ≤ p.offset →
      Position.character p (Document.new path text)
        = (p.offset - (utf8Bytes text).length)
          + Position.character ⟨(utf8Bytes text).length⟩ (Document.new path text)) := by
  refine ⟨?_, by decide, ?_⟩
  · intro path text p hp
    obtain ⟨hle, hlen⟩ := lineStartOf_facts path text p
    rw [character_def]
    simp only [Document_new_text]
    by_cases h1 : lineStartOf (Document.new path text) p ≥ (utf8Bytes text).length
    · rw [if_pos h1]
      have hst : lineStartOf (Document.new path text) p = (utf8Bytes text).length :=
        Nat.le_antisymm hlen h1
      have hpe : p.offset = (utf8Bytes text).length := by omega
      unfold specCharacter
      simp only [Document_new_text]
      rw [hst, hpe]
      simp [utf16Length, utf8DecodeLossy]
    · rw [if_neg h1, if_neg (by omega)]
      rfl
  · intro path text p hp
    have hstart_eq : lineStartOf (Document.new path text) ⟨(utf8Bytes text).length⟩
        = lineStartOf (Document.new path text) p := by
      rw [lineStartOf_def, lineStartOf_def, line_past_end path text p hp]
    obtain ⟨hle2, hlen2⟩ := lineStartOf_facts path text p
    rw [character_def, character_def]
    simp only [Document_new_text, hstart_eq]
    by_cases h1 : lineStartOf (Document.new path text) p ≥ (utf8Bytes text).length
    · rw [if_pos h1, if_pos h1]
      omega
    · rw [if_neg h1, if_neg h1]
      by_cases h2 : p.offset > (utf8Bytes text).length
      · rw [if_pos h2, if_neg (by omega)]
        have htake : (((utf8Bytes text).drop (lineStartOf (Document.new path text) p)).take
            ((utf8Bytes text).length - lineStartOf (Document.new path text) p))
            = (utf8Bytes text).drop (lineStartOf (Document.new path text) p) := by
          apply List.take_of_length_le
          rw [List.length_drop]
        rw [htake]
      · rw [if_neg h2, if_neg (by omega)]
        have hpe : p.offset = (utf8Bytes text).length := by omega
        rw [hpe]
        omega



/-- Witness for C4: parts (i) and (iii) instantiated on the example document. -/
theorem c4_character_utf16_witness :
    Position.character ⟨3⟩ (Document.new "document.txt" "Aß丁🜁".data)
        = specCharacter (Document.new "document.txt" "Aß丁🜁".data) ⟨3⟩
    ∧ Position.character ⟨20⟩ (Document.new "document.txt" "Aß丁🜁".data)
        = (20 - (utf8Bytes "Aß丁🜁".data).length)
          + Position.character ⟨(utf8Bytes "Aß丁🜁".data).length⟩
              (Document.new "document.txt" "Aß丁🜁".data) :=
  ⟨c4_character_utf16.1 "document.txt" "Aß丁🜁".data ⟨3⟩ (by decide),
   c4_character_utf16.2.2 "document.txt" "Aß丁🜁".data ⟨20⟩ (by decide)⟩

end Brite
